import Mathlib

/-!
# OpenCalc cost model — verification development

Shallow embedding of the OpenCalc cost-estimation core:
* `src/src/models/cost_value.py`   (`QuantityType`, `CostValue`)
* `src/src/models/cost_item.py`    (`CostItem` tree node and its operations)
* `src/src/models/cost_schedule.py`(`CostSchedule` root aggregate)
* `src/src/ifc/cost_api.py`        (`CostAPI.add_cost_item`)

Modelling decisions, applied throughout:
* Python `float` money/quantity values are modelled as exact rationals (`ℚ`);
  the properties under scrutiny are algebraic identities of the source's
  arithmetic expressions, not floating-point rounding behaviour.
* Opaque references to external IFC library objects (`ifc_cost_item`,
  `ifc_cost_value`, `ifc_quantity`, `ifc_cost_schedule`) are modelled as
  `Option Unit`: only their presence can matter to the modelled code.
* Three views of the data are used, each faithful to the source for the
  operations it carries:
  1. a pure recursive tree (`CostItem`) for the computational reads
     (`subtotal`, `total`, `get_all_descendants`, schedule totals) — these
     source methods only ever walk `children` downwards;
  2. a tree whose `CostValue`s live in a mutable store (`CostItemR`,
     `CVStore`) for `copy`, where aliasing of cost-value objects is the
     question;
  3. a heap of item records addressed by ids (`State`) for the mutation
     operations (`add_child`, `remove_child`, `insert_child`, `add_item`,
     `insert_item`, `remove_item`, `move_up`, `move_down`, `get_path`,
     `get_full_identification`), where parent/schedule back-references and
     object identity are the question.  Python object identity is modelled
     by the ids; Python's list membership/removal tests (`in`, `remove`,
     `index`), which compare by `==`, coincide with identity on the
     back-reference-consistent states considered here, because the source
     always clears the argument's `parent` field before removing it, which
     makes it structurally unequal to every still-attached sibling.
-/

/-! ## QuantityType and CostValue (src/src/models/cost_value.py) -/

inductive QuantityType where
  | COUNT | LENGTH | AREA | VOLUME | WEIGHT | TIME | NUMBER
  deriving DecidableEq, Repr

/-- `QuantityType.unit_symbol` from cost_value.py. -/
def QuantityType.unit_symbol : QuantityType → String
  | .COUNT => "st"
  | .LENGTH => "m"
  | .AREA => "m²"
  | .VOLUME => "m³"
  | .WEIGHT => "kg"
  | .TIME => "uur"
  | .NUMBER => ""

/-- `CostValue` from cost_value.py.  `unit_price` and `quantity` are Python
floats, modelled as `ℚ`; the IFC references are opaque. -/
structure CostValue where
  unit_price : ℚ := 0
  quantity : ℚ := 0
  quantity_type : QuantityType := .COUNT
  category : String := ""
  description : String := ""
  ifc_cost_value : Option Unit := none
  ifc_quantity : Option Unit := none
  deriving DecidableEq, Repr

/-- `CostValue.total`: `quantity * unit_price`. -/
def CostValue.total (v : CostValue) : ℚ := v.quantity * v.unit_price

/-! ## CostItem as a pure tree (src/src/models/cost_item.py)

The recursive reads (`subtotal`, `total`, `get_all_descendants`) only walk
`children`, so they are embedded on the pure child tree; the `parent` and
`schedule` back-references live in the heap view further below. -/

inductive CostItem where
  | mk (name html_name identification sfb_code description : String)
       (is_text_only : Bool) (cost_value : CostValue)
       (children : List CostItem) (ifc_cost_item : Option Unit)
  deriving Repr

namespace CostItem

def name : CostItem → String
  | .mk n _ _ _ _ _ _ _ _ => n

def html_name : CostItem → String
  | .mk _ h _ _ _ _ _ _ _ => h

def identification : CostItem → String
  | .mk _ _ i _ _ _ _ _ _ => i

def sfb_code : CostItem → String
  | .mk _ _ _ s _ _ _ _ _ => s

def description : CostItem → String
  | .mk _ _ _ _ d _ _ _ _ => d

def is_text_only : CostItem → Bool
  | .mk _ _ _ _ _ t _ _ _ => t

def cost_value : CostItem → CostValue
  | .mk _ _ _ _ _ _ cv _ _ => cv

def children : CostItem → List CostItem
  | .mk _ _ _ _ _ _ _ cs _ => cs

def ifc_cost_item : CostItem → Option Unit
  | .mk _ _ _ _ _ _ _ _ f => f

/-- `is_chapter`: `len(self.children) > 0`. -/
def is_chapter (x : CostItem) : Bool := decide (0 < x.children.length)

/-- `is_leaf`: `len(self.children) == 0`. -/
def is_leaf (x : CostItem) : Bool := x.children.length == 0

/-- property `unit_price`: delegates to `cost_value.unit_price`. -/
def unit_price (x : CostItem) : ℚ := x.cost_value.unit_price

/-- property `quantity`: delegates to `cost_value.quantity`. -/
def quantity (x : CostItem) : ℚ := x.cost_value.quantity

/-- `subtotal`: 0 for text rows, `cost_value.total` for leaves, sum of the
children's subtotals (in child order) for chapters. -/
def subtotal : CostItem → ℚ
  | .mk _ _ _ _ _ t cv cs _ =>
    if t then 0
    else if cs.length == 0 then cv.total
    else (cs.attach.map (fun c => subtotal c.1)).sum
termination_by x => sizeOf x
decreasing_by
  simp only [CostItem.mk.sizeOf_spec]
  have := List.sizeOf_lt_of_mem c.2
  omega

/-- `total`: alias for `subtotal`. -/
def total (x : CostItem) : ℚ := x.subtotal

theorem subtotal_mk (n h i s d t cv cs f) :
    (CostItem.mk n h i s d t cv cs f).subtotal =
      (if t then 0 else if cs.length == 0 then cv.total
       else (cs.map subtotal).sum) := by
  rw [subtotal]
  simp [List.attach_map_coe]

/-- `get_all_descendants`: each child followed by its own descendants,
in child order. -/
def get_all_descendants : CostItem → List CostItem
  | .mk _ _ _ _ _ _ _ cs _ =>
    (cs.attach.map (fun c => c.1 :: get_all_descendants c.1)).flatten
termination_by x => sizeOf x
decreasing_by
  simp only [CostItem.mk.sizeOf_spec]
  have := List.sizeOf_lt_of_mem c.2
  omega

theorem get_all_descendants_mk (n h i s d t cv cs f) :
    (CostItem.mk n h i s d t cv cs f).get_all_descendants =
      (cs.map (fun c => c :: c.get_all_descendants)).flatten := by
  rw [get_all_descendants]
  simp [List.attach_map_coe]

end CostItem

/-! ## CostSchedule (src/src/models/cost_schedule.py) -/

inductive ScheduleType where
  | BUDGET | COSTPLAN | ESTIMATE | TENDER
  | PRICEDBILLOFQUANTITIES | UNPRICEDBILLOFQUANTITIES | SCHEDULEOFRATES
  deriving DecidableEq, Repr

inductive ScheduleStatus where
  | DRAFT | APPROVED | SUBMITTED | REJECTED
  deriving DecidableEq, Repr

/-- `CostSchedule` from cost_schedule.py (dates and the opaque IFC reference
play no part in the claims and are omitted; `vat_rate` is a Python float,
modelled as `ℚ`, default 21). -/
structure CostSchedule where
  name : String := "Nieuwe Begroting"
  description : String := ""
  schedule_type : ScheduleType := .BUDGET
  status : ScheduleStatus := .DRAFT
  items : List CostItem := []
  vat_rate : ℚ := 21

namespace CostSchedule

/-- `subtotal`: sum of the root items' subtotals. -/
def subtotal (s : CostSchedule) : ℚ := (s.items.map CostItem.subtotal).sum

/-- `vat_amount`: `self.subtotal * (self.vat_rate / 100)`. -/
def vat_amount (s : CostSchedule) : ℚ := s.subtotal * (s.vat_rate / 100)

/-- `total`: `self.subtotal + self.vat_amount`. -/
def total (s : CostSchedule) : ℚ := s.subtotal + s.vat_amount

/-- `item_count`: adds `1 + len(item.get_all_descendants())` per root item. -/
def item_count (s : CostSchedule) : Nat :=
  (s.items.map (fun i => 1 + i.get_all_descendants.length)).sum

/-- `chapter_count`: number of root items. -/
def chapter_count (s : CostSchedule) : Nat := s.items.length

/-- `get_all_items`: each root item followed by its descendants, in order. -/
def get_all_items (s : CostSchedule) : List CostItem :=
  (s.items.map (fun i => i :: i.get_all_descendants)).flatten

end CostSchedule

/-! ## Claims C1, C2, C7, C10 -/

/-- **C1** — For every CostItem, `subtotal` follows the aggregation rule:
0 when `is_text_only`; `quantity * unit_price` (that is, `CostValue.total`)
for a childless item; the sum of the children's subtotals, in child order,
otherwise; and `total` is an alias equal to `subtotal`. -/
theorem claim_C1 (x : CostItem) :
    (x.is_text_only = true → x.subtotal = 0) ∧
    (x.is_text_only = false → x.is_leaf = true →
      x.subtotal = x.quantity * x.unit_price ∧ x.subtotal = x.cost_value.total) ∧
    (x.is_text_only = false → x.is_leaf = false →
      x.subtotal = (x.children.map CostItem.subtotal).sum) ∧
    x.total = x.subtotal := by
  obtain ⟨n, h, i, s, d, t, cv, cs, f⟩ := x
  refine ⟨fun ht => ?_, fun ht hl => ?_, fun ht hl => ?_, rfl⟩
  · simp [CostItem.subtotal_mk, CostItem.is_text_only] at ht ⊢
    simp [ht]
  · simp [CostItem.is_text_only] at ht
    simp [CostItem.is_leaf, CostItem.children, List.length_eq_zero] at hl
    subst hl
    simp [CostItem.subtotal_mk, ht, CostItem.quantity, CostItem.unit_price,
      CostItem.cost_value, CostValue.total]
  · simp [CostItem.is_text_only] at ht
    simp [CostItem.is_leaf, CostItem.children] at hl
    simp [CostItem.subtotal_mk, ht, hl, CostItem.children]

/-- Witness for C1 at a concrete leaf item. -/
theorem claim_C1_witness :
    letI x : CostItem := .mk "post" "" "01.01" "" "" false
        { unit_price := 25/2, quantity := 85 } [] none
    x.is_text_only = false ∧ x.is_leaf = true ∧
      x.subtotal = x.quantity * x.unit_price ∧ x.subtotal = x.cost_value.total := by
  refine ⟨rfl, rfl, ?_, ?_⟩
  · exact ((claim_C1 (.mk "post" "" "01.01" "" "" false
      { unit_price := 25/2, quantity := 85 } [] none)).2.1 rfl rfl).1
  · exact ((claim_C1 (.mk "post" "" "01.01" "" "" false
      { unit_price := 25/2, quantity := 85 } [] none)).2.1 rfl rfl).2

/-- **C2** — For every CostSchedule with non-negative VAT rate: `subtotal`
is the sum of the root items' subtotals, `vat_amount = subtotal * vat_rate
/ 100`, and `total = subtotal + vat_amount`. -/
theorem claim_C2 (s : CostSchedule) (_hv : 0 ≤ s.vat_rate) :
    s.subtotal = (s.items.map CostItem.subtotal).sum ∧
    s.vat_amount = s.subtotal * s.vat_rate / 100 ∧
    s.total = s.subtotal + s.vat_amount := by
  refine ⟨rfl, ?_, rfl⟩
  rw [CostSchedule.vat_amount, mul_div_assoc]

/-- Witness for C2 on a concrete one-item schedule (spec Scenario A:
85 × 12.50 at 21% VAT gives 1062.5 excl. and 1285.625 incl.). -/
theorem claim_C2_witness :
    letI s : CostSchedule :=
      { items := [.mk "Grondwerk" "" "01" "" "" false
          { unit_price := 25/2, quantity := 85 } [] none],
        vat_rate := 21 }
    (0 : ℚ) ≤ s.vat_rate ∧ s.vat_amount = s.subtotal * s.vat_rate / 100 ∧
      s.subtotal = 2125/2 ∧ s.total = 10285/8 := by
  refine ⟨by norm_num, (claim_C2 _ (by norm_num)).2.1, ?_, ?_⟩ <;>
    norm_num [CostSchedule.subtotal, CostSchedule.total, CostSchedule.vat_amount,
      CostItem.subtotal_mk, CostValue.total]

/-- **C7 counterexample** — the claim "every CostItem with at least one
child has `subtotal` equal to the sum of its children's subtotals" fails
for a text-only item carrying a child: `is_text_only` is tested first, so
the subtotal is 0, not the child sum. -/
theorem claim_C7_counterexample :
    letI x : CostItem := .mk "opmerking" "" "" "" "" true
        { unit_price := 0, quantity := 0 }
        [.mk "leaf" "" "" "" "" false { unit_price := 100, quantity := 1 } [] none]
        none
    x.is_chapter = true ∧ x.subtotal = 0 ∧
      (x.children.map CostItem.subtotal).sum = 100 ∧
      ¬ x.subtotal = (x.children.map CostItem.subtotal).sum := by
  refine ⟨rfl, ?_, ?_, ?_⟩ <;>
    norm_num [CostItem.subtotal_mk, CostItem.children, CostValue.total]

/-- **C7 (amended)** — every CostItem with at least one child whose
`is_text_only` flag is false has `subtotal` equal to the sum of its
children's subtotals, in child order; its own CostValue is ignored. -/
theorem claim_C7 (x : CostItem) (ht : x.is_text_only = false)
    (hc : x.children ≠ []) :
    x.subtotal = (x.children.map CostItem.subtotal).sum := by
  obtain ⟨n, h, i, s, d, t, cv, cs, f⟩ := x
  simp [CostItem.is_text_only] at ht
  simp [CostItem.children] at hc
  simp [CostItem.subtotal_mk, ht, hc, CostItem.children]

/-- Witness for C7 on a concrete two-child chapter. -/
theorem claim_C7_witness :
    letI x : CostItem := .mk "hoofdstuk" "" "01" "" "" false
        { unit_price := 7, quantity := 2 }
        [.mk "a" "" "" "" "" false { unit_price := 10, quantity := 3 } [] none,
         .mk "b" "" "" "" "" true { unit_price := 5, quantity := 4 } [] none]
        none
    x.subtotal = (x.children.map CostItem.subtotal).sum ∧ x.subtotal = 30 := by
  refine ⟨claim_C7 _ rfl (by simp [CostItem.children]), ?_⟩
  norm_num [CostItem.subtotal_mk, CostValue.total]

/-- **C10** — for every CostSchedule, `item_count` equals the length of
the flattened pre-order list returned by `get_all_items`. -/
theorem claim_C10 (s : CostSchedule) :
    s.item_count = s.get_all_items.length := by
  rw [CostSchedule.item_count, CostSchedule.get_all_items, List.length_flatten,
    List.map_map]
  simp [Function.comp_def, Nat.add_comm]

/-! ## CostAPI.add_cost_item (src/src/ifc/cost_api.py) — claim C9

The method wraps the external `ifcopenshell.api.run("cost.add_cost_item", …)`
call; that call is passed in as a function argument `run`.  The created IFC
entity is modelled by `IfcCostItem` (only the two attributes the method
touches).  Python's `if not cost_schedule and not cost_item` tests the
arguments against `None` (IFC entities are always truthy), modelled by
`Option`; the raised `ValueError` is the `Except.error` branch. -/

structure IfcCostItem where
  Name : String := ""
  Identification : String := ""
  deriving DecidableEq, Repr

namespace CostAPI

/-- The `if name: item.Name = name` / `if identification: …` tail of
`add_cost_item` (Python truthiness of a string is non-emptiness). -/
def set_name_identification (item : IfcCostItem) (name identification : String) :
    IfcCostItem :=
  let item1 := if name ≠ "" then { item with Name := name } else item
  if identification ≠ "" then { item1 with Identification := identification } else item1

/-- `CostAPI.add_cost_item`: raises `ValueError` when neither a schedule
nor a parent item is given; otherwise defers to the external API call and
returns the created item with name/identification applied. -/
def add_cost_item (run : Option Unit → Option Unit → IfcCostItem)
    (cost_schedule cost_item : Option Unit)
    (name identification : String) :
    Except String IfcCostItem :=
  if cost_schedule = none ∧ cost_item = none then
    .error "Geef een cost_schedule of cost_item op als parent"
  else
    .ok (set_name_identification (run cost_schedule cost_item) name identification)

end CostAPI

/-- **C9** — `add_cost_item` errors exactly when both `cost_schedule` and
`cost_item` are absent; when at least one is supplied it returns the
created item. -/
theorem claim_C9 (run : Option Unit → Option Unit → IfcCostItem)
    (cost_schedule cost_item : Option Unit) (name identification : String) :
    ((∃ msg, CostAPI.add_cost_item run cost_schedule cost_item name identification
        = .error msg) ↔ cost_schedule = none ∧ cost_item = none) ∧
    (cost_schedule.isSome ∨ cost_item.isSome →
      CostAPI.add_cost_item run cost_schedule cost_item name identification
        = .ok (CostAPI.set_name_identification (run cost_schedule cost_item)
            name identification)) := by
  constructor
  · constructor
    · intro ⟨msg, hmsg⟩
      by_contra hc
      rw [CostAPI.add_cost_item, if_neg hc] at hmsg
      exact Except.noConfusion hmsg
    · intro hb
      exact ⟨_, by rw [CostAPI.add_cost_item, if_pos hb]⟩
  · intro hs
    rw [CostAPI.add_cost_item, if_neg]
    rintro ⟨h1, h2⟩
    rcases hs with hs | hs
    · rw [h1] at hs; exact Bool.noConfusion hs
    · rw [h2] at hs; exact Bool.noConfusion hs

/-- Witness for C9: with a schedule supplied the call returns the created
item; with neither supplied it errors. -/
theorem claim_C9_witness :
    (CostAPI.add_cost_item (fun _ _ => {}) (some ()) none "Fundering" "02"
      = .ok { Name := "Fundering", Identification := "02" }) ∧
    (∃ msg, CostAPI.add_cost_item (fun _ _ => {}) none none "" "" = .error msg) := by
  constructor
  · exact (claim_C9 (fun _ _ => {}) (some ()) none "Fundering" "02").2 (.inl rfl)
  · exact (claim_C9 (fun _ _ => {}) none none "" "").1.2 ⟨rfl, rfl⟩

/-! ## CostItem.copy with a cost-value store — claim C5

`CostItem.copy` builds a fresh `CostValue(unit_price=…, quantity=…,
quantity_type=…)` for the clone (resetting `category`/`description` and the
IFC references to their defaults) and recursively copies the children,
attaching each clone via `add_child`.  To settle the independence part of
the claim — mutating the copy's cost value must not change the original's
subtotal — the `CostValue` objects are given identities: they live in a
store `CVStore` addressed by numeric ids, and items (`CostItemR`) hold the
id of their cost value.  `copy` allocates fresh ids from a counter.
`parent`/`schedule` are tracked as presence only (`Option Unit`): the
constructor leaves them `None`, and `add_child` on the freshly built,
detached clone sets the child's `parent` and propagates the clone's
`schedule` (`None`). -/

def CVStore := Nat → CostValue

def updCV (σ : CVStore) (i : Nat) (v : CostValue) : CVStore :=
  fun j => if j = i then v else σ j

theorem updCV_same (σ : CVStore) (i : Nat) (v : CostValue) : updCV σ i v i = v := by
  simp [updCV]

theorem updCV_other (σ : CVStore) (i j : Nat) (v : CostValue) (h : j ≠ i) :
    updCV σ i v j = σ j := by
  simp [updCV, h]

inductive CostItemR where
  | mk (name html_name identification sfb_code description : String)
       (is_text_only : Bool) (cvId : Nat)
       (parent schedule : Option Unit)
       (children : List CostItemR)

namespace CostItemR

def name : CostItemR → String
  | .mk n _ _ _ _ _ _ _ _ _ => n

def html_name : CostItemR → String
  | .mk _ h _ _ _ _ _ _ _ _ => h

def identification : CostItemR → String
  | .mk _ _ i _ _ _ _ _ _ _ => i

def sfb_code : CostItemR → String
  | .mk _ _ _ s _ _ _ _ _ _ => s

def description : CostItemR → String
  | .mk _ _ _ _ d _ _ _ _ _ => d

def is_text_only : CostItemR → Bool
  | .mk _ _ _ _ _ t _ _ _ _ => t

def cvId : CostItemR → Nat
  | .mk _ _ _ _ _ _ c _ _ _ => c

def parent : CostItemR → Option Unit
  | .mk _ _ _ _ _ _ _ p _ _ => p

def schedule : CostItemR → Option Unit
  | .mk _ _ _ _ _ _ _ _ s _ => s

def children : CostItemR → List CostItemR
  | .mk _ _ _ _ _ _ _ _ _ cs => cs

/-- `subtotal` over the store view: same aggregation rule as
`CostItem.subtotal`, reading the cost value from the store. -/
def subtotalR (σ : CVStore) : CostItemR → ℚ
  | .mk _ _ _ _ _ t cv _ _ cs =>
    if t then 0
    else if cs.length == 0 then (σ cv).total
    else (cs.attach.map (fun c => subtotalR σ c.1)).sum
termination_by x => sizeOf x
decreasing_by
  simp only [CostItemR.mk.sizeOf_spec]
  have := List.sizeOf_lt_of_mem c.2
  omega

theorem subtotalR_mk (σ n h i s d t cv p sch cs) :
    subtotalR σ (CostItemR.mk n h i s d t cv p sch cs) =
      (if t then 0 else if cs.length == 0 then (σ cv).total
       else (cs.map (subtotalR σ)).sum) := by
  rw [subtotalR]
  simp [List.attach_map_coe]

/-- All cost-value ids referenced in a subtree. -/
def cvIds : CostItemR → List Nat
  | .mk _ _ _ _ _ _ cv _ _ cs =>
    cv :: (cs.attach.map (fun c => cvIds c.1)).flatten
termination_by x => sizeOf x
decreasing_by
  simp only [CostItemR.mk.sizeOf_spec]
  have := List.sizeOf_lt_of_mem c.2
  omega

theorem cvIds_mk (n h i s d t cv p sch cs) :
    cvIds (CostItemR.mk n h i s d t cv p sch cs) =
      cv :: (cs.map cvIds).flatten := by
  rw [cvIds]
  simp [List.attach_map_coe]

/-- The effect of `new_item.add_child(child_copy)` inside `copy` on the
attached child: `parent` becomes set, `schedule` becomes the new (detached)
parent's schedule, i.e. `None`. -/
def attach_as_child : CostItemR → CostItemR
  | .mk n h i s d t cv _ _ cs => .mk n h i s d t cv (some ()) none cs

theorem subtotalR_attach_as_child (σ : CVStore) (x : CostItemR) :
    subtotalR σ x.attach_as_child = subtotalR σ x := by
  obtain ⟨n, h, i, s, d, t, cv, p, sch, cs⟩ := x
  rw [attach_as_child, subtotalR_mk, subtotalR_mk]

theorem cvIds_attach_as_child (x : CostItemR) :
    x.attach_as_child.cvIds = x.cvIds := by
  obtain ⟨n, h, i, s, d, t, cv, p, sch, cs⟩ := x
  rw [attach_as_child, cvIds_mk, cvIds_mk]

end CostItemR

/-- The fresh `CostValue(...)` built at the top of `CostItem.copy`: only
`unit_price`, `quantity` and `quantity_type` are carried over; `category`,
`description` and the IFC references take their defaults. -/
def copyCV (v : CostValue) : CostValue :=
  { unit_price := v.unit_price, quantity := v.quantity,
    quantity_type := v.quantity_type }

mutual
/-- `CostItem.copy` over the store view: allocates a fresh cost-value id
`nx` for the clone's new `CostValue`, then clones the children in order,
attaching each via `add_child`.  Returns (clone, store, next fresh id). -/
def copyR : CostItemR → CVStore → Nat → CostItemR × CVStore × Nat
  | .mk n h i s d t cv _ _ cs, σ, nx =>
    let σ1 := updCV σ nx (copyCV (σ cv))
    let r := copyList cs σ1 (nx + 1)
    (.mk n h i s d t nx none none r.1, r.2.1, r.2.2)

/-- The `for child in self.children: new_item.add_child(child.copy())`
loop of `CostItem.copy`, threading the store and fresh-id counter. -/
def copyList : List CostItemR → CVStore → Nat → List CostItemR × CVStore × Nat
  | [], σ, nx => ([], σ, nx)
  | c :: cs, σ, nx =>
    let rc := copyR c σ nx
    let rr := copyList cs rc.2.1 rc.2.2
    (rc.1.attach_as_child :: rr.1, rr.2.1, rr.2.2)
end

/-- `subtotalR` only reads the store at the subtree's own cost-value ids. -/
theorem subtotalR_congr (σ1 σ2 : CVStore) :
    ∀ x : CostItemR, (∀ id ∈ x.cvIds, σ1 id = σ2 id) →
      CostItemR.subtotalR σ1 x = CostItemR.subtotalR σ2 x
  | .mk n h i s d t cv p sch cs => fun hag => by
    rw [CostItemR.subtotalR_mk, CostItemR.subtotalR_mk]
    rw [CostItemR.cvIds_mk] at hag
    have hroot : σ1 cv = σ2 cv := hag cv (List.mem_cons_self _ _)
    have hrec : ∀ c ∈ cs, CostItemR.subtotalR σ1 c = CostItemR.subtotalR σ2 c := by
      intro c hc
      exact subtotalR_congr σ1 σ2 c (fun id hid => hag id
        (List.mem_cons_of_mem _ (List.mem_flatten.2 ⟨c.cvIds, List.mem_map_of_mem _ hc, hid⟩)))
    rw [hroot, List.map_congr_left hrec]
termination_by x => sizeOf x
decreasing_by
  simp only [CostItemR.mk.sizeOf_spec]
  have := List.sizeOf_lt_of_mem hc
  omega

theorem copyCV_total (v : CostValue) : (copyCV v).total = v.total := rfl

theorem cvId_mem_cvIds (y : CostItemR) : y.cvId ∈ y.cvIds := by
  obtain ⟨n, h, i, s, d, t, cv, p, sch, cs⟩ := y
  rw [CostItemR.cvIds_mk]
  exact List.mem_cons_self _ _

theorem mem_cvIds_of_mem_children (y c : CostItemR) (hc : c ∈ y.children)
    (id : Nat) (hid : id ∈ c.cvIds) : id ∈ y.cvIds := by
  obtain ⟨n, h, i, s, d, t, cv, p, sch, cs⟩ := y
  rw [CostItemR.cvIds_mk]
  exact List.mem_cons_of_mem _
    (List.mem_flatten.2 ⟨c.cvIds, List.mem_map_of_mem _ hc, hid⟩)

/-- `y` is the recursive copy of `x` that `CostItem.copy` produces, with
the original's cost values read from `σ` and the clone's from `σ2`: the
same scalar fields, a rebuilt cost value (pricing data preserved,
`category` and `description` reset to their defaults), and the children in
the same order, each itself recursively a copy. -/
def CopyOf (σ σ2 : CVStore) : CostItemR → CostItemR → Prop
  | .mk n h i s d t cv _ _ cs, y =>
    y.name = n ∧ y.html_name = h ∧ y.identification = i ∧
    y.sfb_code = s ∧ y.description = d ∧ y.is_text_only = t ∧
    (σ2 y.cvId).unit_price = (σ cv).unit_price ∧
    (σ2 y.cvId).quantity = (σ cv).quantity ∧
    (σ2 y.cvId).quantity_type = (σ cv).quantity_type ∧
    (σ2 y.cvId).category = "" ∧
    (σ2 y.cvId).description = "" ∧
    y.children.length = cs.length ∧
    ∀ (k : Nat) (hk : k < cs.length) (hk2 : k < y.children.length),
      CopyOf σ σ2 (cs.get ⟨k, hk⟩) (y.children.get ⟨k, hk2⟩)
termination_by x _ => sizeOf x
decreasing_by
  simp only [CostItemR.mk.sizeOf_spec]
  have := List.sizeOf_lt_of_mem (List.get_mem cs k hk)
  omega

/-- `CopyOf` only reads the stores at the two subtrees' own cost-value
ids. -/
theorem CopyOf_congr (σa σb σc σd : CVStore) :
    ∀ (x y : CostItemR), (∀ id ∈ x.cvIds, σa id = σb id) →
      (∀ id ∈ y.cvIds, σc id = σd id) →
      CopyOf σa σc x y → CopyOf σb σd x y
  | .mk n h i s d t cv p sch cs, y => fun hx hy hco => by
    rw [CopyOf] at hco ⊢
    obtain ⟨h1, h2, h3, h4, h5, h6, h7, h8, h9, h10, h11, h12, h13⟩ := hco
    have hacv : σa cv = σb cv := hx cv (by
      rw [CostItemR.cvIds_mk]
      exact List.mem_cons_self _ _)
    have hccv : σc y.cvId = σd y.cvId := hy y.cvId (cvId_mem_cvIds y)
    refine ⟨h1, h2, h3, h4, h5, h6, ?_, ?_, ?_, ?_, ?_, h12, ?_⟩
    · rw [← hccv, ← hacv]
      exact h7
    · rw [← hccv, ← hacv]
      exact h8
    · rw [← hccv, ← hacv]
      exact h9
    · rw [← hccv]
      exact h10
    · rw [← hccv]
      exact h11
    · intro k hk hk2
      refine CopyOf_congr σa σb σc σd (cs.get ⟨k, hk⟩)
        (y.children.get ⟨k, hk2⟩) ?_ ?_ (h13 k hk hk2)
      · intro id hid
        refine hx id ?_
        rw [CostItemR.cvIds_mk]
        exact List.mem_cons_of_mem _ (List.mem_flatten.2
          ⟨(cs.get ⟨k, hk⟩).cvIds,
            List.mem_map_of_mem _ (List.get_mem cs k hk), hid⟩)
      · intro id hid
        exact hy id (mem_cvIds_of_mem_children y _
          (List.get_mem y.children k hk2) id hid)
termination_by x _ => sizeOf x
decreasing_by
  simp only [CostItemR.mk.sizeOf_spec]
  have := List.sizeOf_lt_of_mem (List.get_mem cs k hk)
  omega

/-- Attaching the clone via `add_child` (setting its `parent`/`schedule`
back-references) does not disturb the copy relation, which never reads
them. -/
theorem CopyOf_attach (σ σ2 : CVStore) (x y : CostItemR)
    (h : CopyOf σ σ2 x y) : CopyOf σ σ2 x y.attach_as_child := by
  obtain ⟨xn, xh, xi, xs, xd, xt, xcv, xp, xsch, xcs⟩ := x
  obtain ⟨yn, yh, yi, ys, yd, yt, ycv, yp, ysch, ycs⟩ := y
  rw [CostItemR.attach_as_child]
  rw [CopyOf] at h ⊢
  exact h

/-- What one `copy` call guarantees: fresh ids, untouched old store slots,
preserved scalar fields, a detached clone, and an equal subtotal. -/
structure CopySpec (σ : CVStore) (nx : Nat) (x y : CostItemR)
    (σ' : CVStore) (n' : Nat) : Prop where
  lt_next : nx < n'
  preserved : ∀ id, id < nx → σ' id = σ id
  fresh : ∀ id ∈ y.cvIds, nx ≤ id ∧ id < n'
  cv_id : y.cvId = nx
  root_cv : σ' nx = copyCV (σ x.cvId)
  name_eq : y.name = x.name
  html_eq : y.html_name = x.html_name
  ident_eq : y.identification = x.identification
  sfb_eq : y.sfb_code = x.sfb_code
  descr_eq : y.description = x.description
  text_eq : y.is_text_only = x.is_text_only
  parent_none : y.parent = none
  schedule_none : y.schedule = none
  child_len : y.children.length = x.children.length
  sub_eq : CostItemR.subtotalR σ' y = CostItemR.subtotalR σ x
  copy_of : CopyOf σ σ' x y

/-- The list version, for the child-copying loop. -/
structure CopyListSpec (σ : CVStore) (nx : Nat) (cs ks : List CostItemR)
    (σ' : CVStore) (n' : Nat) : Prop where
  le_next : nx ≤ n'
  preserved : ∀ id, id < nx → σ' id = σ id
  fresh : ∀ id ∈ (ks.map CostItemR.cvIds).flatten, nx ≤ id ∧ id < n'
  len : ks.length = cs.length
  sub_eq : (ks.map (CostItemR.subtotalR σ')).sum
    = (cs.map (CostItemR.subtotalR σ)).sum
  copies : ∀ (k : Nat) (hk : k < cs.length) (hk2 : k < ks.length),
    CopyOf σ σ' (cs.get ⟨k, hk⟩) (ks.get ⟨k, hk2⟩)

mutual
theorem copyR_spec : ∀ (x : CostItemR) (σ : CVStore) (nx : Nat),
    (∀ id ∈ x.cvIds, id < nx) →
    CopySpec σ nx x (copyR x σ nx).1 (copyR x σ nx).2.1 (copyR x σ nx).2.2
  | .mk n h i s d t cv p sch cs, σ, nx => fun hb => by
    have hcv : cv < nx := hb cv (by rw [CostItemR.cvIds_mk]; exact List.mem_cons_self _ _)
    have hb' : ∀ id ∈ (cs.map CostItemR.cvIds).flatten, id < nx + 1 := by
      intro id hid
      have := hb id (by rw [CostItemR.cvIds_mk]; exact List.mem_cons_of_mem _ hid)
      omega
    have hlist := copyList_spec cs (updCV σ nx (copyCV (σ cv))) (nx + 1) hb'
    obtain ⟨hle, hpres, hfresh, hlen, hsub, hcopies⟩ := hlist
    simp only [copyR]
    constructor
    · omega
    · intro id hid
      rw [hpres id (by omega), updCV_other _ _ _ _ (by omega)]
    · intro id hid
      rw [CostItemR.cvIds_mk] at hid
      rcases List.mem_cons.1 hid with rfl | hid
      · exact ⟨le_refl _, by omega⟩
      · have := hfresh id hid
        omega
    · rfl
    · rw [hpres nx (by omega), updCV_same, CostItemR.cvId]
    · rfl
    · rfl
    · rfl
    · rfl
    · rfl
    · rfl
    · rfl
    · rfl
    · rw [CostItemR.children, CostItemR.children]; exact hlen
    · rw [CostItemR.subtotalR_mk, CostItemR.subtotalR_mk]
      by_cases ht : t = true
      · simp [ht]
      · rw [if_neg ht, if_neg ht]
        by_cases hcs : cs = []
        · subst hcs
          have hks : (copyList [] (updCV σ nx (copyCV (σ cv))) (nx + 1)).1 = [] := by
            simp only [copyList]
          rw [hks]
          simp only [List.length_nil, beq_self_eq_true, if_true]
          rw [hpres nx (by omega), updCV_same, copyCV_total]
        · have hcsl : ¬ cs.length = 0 := fun hh => hcs (List.length_eq_zero.mp hh)
          have hksl : ¬ ((copyList cs (updCV σ nx (copyCV (σ cv))) (nx + 1)).1).length = 0 := by
            rw [hlen]; exact hcsl
          rw [if_neg (by simpa using hksl), if_neg (by simpa using hcsl), hsub]
          refine congrArg List.sum (List.map_congr_left ?_)
          intro c hc
          refine subtotalR_congr _ _ c ?_
          intro id hid
          have hidlt : id < nx := hb id (by
            rw [CostItemR.cvIds_mk]
            exact List.mem_cons_of_mem _
              (List.mem_flatten.2 ⟨c.cvIds, List.mem_map_of_mem _ hc, hid⟩))
          rw [updCV_other _ _ _ _ (by omega)]
    · rw [CopyOf]
      refine ⟨rfl, rfl, rfl, rfl, rfl, rfl, ?_, ?_, ?_, ?_, ?_, ?_, ?_⟩
      · show ((copyList cs (updCV σ nx (copyCV (σ cv))) (nx + 1)).2.1 nx).unit_price
          = (σ cv).unit_price
        rw [hpres nx (by omega), updCV_same]
        rfl
      · show ((copyList cs (updCV σ nx (copyCV (σ cv))) (nx + 1)).2.1 nx).quantity
          = (σ cv).quantity
        rw [hpres nx (by omega), updCV_same]
        rfl
      · show ((copyList cs (updCV σ nx (copyCV (σ cv))) (nx + 1)).2.1 nx).quantity_type
          = (σ cv).quantity_type
        rw [hpres nx (by omega), updCV_same]
        rfl
      · show ((copyList cs (updCV σ nx (copyCV (σ cv))) (nx + 1)).2.1 nx).category = ""
        rw [hpres nx (by omega), updCV_same]
        rfl
      · show ((copyList cs (updCV σ nx (copyCV (σ cv))) (nx + 1)).2.1 nx).description = ""
        rw [hpres nx (by omega), updCV_same]
        rfl
      · exact hlen
      · intro k hk hk2
        refine CopyOf_congr (updCV σ nx (copyCV (σ cv))) σ _ _ _ _ ?_
          (fun id _ => rfl) (hcopies k hk hk2)
        intro id hid
        have hidlt : id < nx := hb id (by
          rw [CostItemR.cvIds_mk]
          exact List.mem_cons_of_mem _ (List.mem_flatten.2
            ⟨(cs.get ⟨k, hk⟩).cvIds,
              List.mem_map_of_mem _ (List.get_mem cs k hk), hid⟩))
        rw [updCV_other _ _ _ _ (by omega)]

theorem copyList_spec : ∀ (cs : List CostItemR) (σ : CVStore) (nx : Nat),
    (∀ id ∈ (cs.map CostItemR.cvIds).flatten, id < nx) →
    CopyListSpec σ nx cs (copyList cs σ nx).1 (copyList cs σ nx).2.1
      (copyList cs σ nx).2.2
  | [], σ, nx => fun _ => by
    simp only [copyList]
    exact ⟨le_refl _, fun _ _ => rfl, by simp, rfl, rfl,
      fun k hk hk2 => absurd hk (by simp)⟩
  | c :: cs, σ, nx => fun hb => by
    have hbc : ∀ id ∈ c.cvIds, id < nx := by
      intro id hid
      exact hb id (by simp [List.mem_flatten]; exact Or.inl hid)
    have hc := copyR_spec c σ nx hbc
    have hbtail : ∀ id ∈ (cs.map CostItemR.cvIds).flatten, id < (copyR c σ nx).2.2 := by
      intro id hid
      have h1 : id < nx := hb id (by
        simp only [List.map_cons, List.flatten_cons, List.mem_append]
        exact Or.inr hid)
      have := hc.lt_next
      omega
    have htail := copyList_spec cs (copyR c σ nx).2.1 (copyR c σ nx).2.2 hbtail
    simp only [copyList]
    constructor
    · have := hc.lt_next
      have := htail.le_next
      omega
    · intro id hid
      rw [htail.preserved id (by have := hc.lt_next; omega), hc.preserved id hid]
    · intro id hid
      simp only [List.map_cons, List.flatten_cons, List.mem_append,
        CostItemR.cvIds_attach_as_child] at hid
      rcases hid with hid | hid
      · have h1 := hc.fresh id hid
        have := htail.le_next
        omega
      · have h1 := htail.fresh id hid
        have := hc.lt_next
        omega
    · simp [htail.len]
    · simp only [List.map_cons, List.sum_cons]
      have hhead : CostItemR.subtotalR (copyList cs (copyR c σ nx).2.1 (copyR c σ nx).2.2).2.1
          ((copyR c σ nx).1.attach_as_child) = CostItemR.subtotalR σ c := by
        rw [CostItemR.subtotalR_attach_as_child]
        have h1 : CostItemR.subtotalR (copyList cs (copyR c σ nx).2.1 (copyR c σ nx).2.2).2.1
            ((copyR c σ nx).1) = CostItemR.subtotalR ((copyR c σ nx).2.1) ((copyR c σ nx).1) := by
          refine subtotalR_congr _ _ _ ?_
          intro id hid
          exact htail.preserved id (hc.fresh id hid).2
        rw [h1, hc.sub_eq]
      have htailsum : ((copyList cs (copyR c σ nx).2.1 (copyR c σ nx).2.2).1.map
          (CostItemR.subtotalR (copyList cs (copyR c σ nx).2.1 (copyR c σ nx).2.2).2.1)).sum
          = (cs.map (CostItemR.subtotalR σ)).sum := by
        rw [htail.sub_eq]
        refine congrArg List.sum (List.map_congr_left ?_)
        intro d hd
        refine subtotalR_congr _ _ d ?_
        intro id hid
        have hidlt : id < nx := hb id (by
          simp only [List.map_cons, List.flatten_cons, List.mem_append]
          exact Or.inr (List.mem_flatten.2 ⟨d.cvIds, List.mem_map_of_mem _ hd, hid⟩))
        exact hc.preserved id hidlt
      rw [hhead, htailsum]
    · intro k hk hk2
      cases k with
      | zero =>
        refine CopyOf_attach _ _ _ _ ?_
        refine CopyOf_congr σ σ ((copyR c σ nx).2.1)
          ((copyList cs (copyR c σ nx).2.1 (copyR c σ nx).2.2).2.1) _ _
          (fun id _ => rfl) ?_ hc.copy_of
        intro id hid
        exact (htail.preserved id (hc.fresh id hid).2).symm
      | succ k2 =>
        have hb1 : k2 < cs.length := Nat.lt_of_succ_lt_succ hk
        have hb2 : k2 <
            (copyList cs (copyR c σ nx).2.1 (copyR c σ nx).2.2).1.length :=
          Nat.lt_of_succ_lt_succ hk2
        refine CopyOf_congr ((copyR c σ nx).2.1) σ
          ((copyList cs (copyR c σ nx).2.1 (copyR c σ nx).2.2).2.1)
          ((copyList cs (copyR c σ nx).2.1 (copyR c σ nx).2.2).2.1) _ _
          ?_ (fun id _ => rfl) (htail.copies k2 hb1 hb2)
        intro id hid
        have hidlt : id < nx := hb id (by
          simp only [List.map_cons, List.flatten_cons, List.mem_append]
          exact Or.inr (List.mem_flatten.2
            ⟨(cs.get ⟨k2, hb1⟩).cvIds,
              List.mem_map_of_mem _ (List.get_mem cs k2 hb1), hid⟩))
        exact hc.preserved id hidlt
end

/-- **C5 counterexample** — the claim that `y = x.copy()` carries "the same
cost-value data" fails for the `category` field: `copy` rebuilds the
`CostValue` from `unit_price`/`quantity`/`quantity_type` only, so a
non-empty `category` on the original is reset to `""` on the clone. -/
theorem claim_C5_counterexample :
    letI σ0 : CVStore := fun _ =>
      { unit_price := 5, quantity := 2, category := "Arbeid" }
    letI x : CostItemR := .mk "post" "" "" "" "" false 0 none none []
    (σ0 x.cvId).category = "Arbeid" ∧
      ((copyR x σ0 1).2.1 ((copyR x σ0 1).1.cvId)).category = "" ∧
      (copyR x σ0 1).2.1 ((copyR x σ0 1).1.cvId) ≠ σ0 x.cvId := by
  refine ⟨rfl, ?_, ?_⟩
  · simp [copyR, copyList, updCV, copyCV, CostItemR.cvId]
  · simp [copyR, copyList, updCV, copyCV, CostItemR.cvId]
    decide

/-- **C5 (amended)** — `y = x.copy()` is a deep clone of `x`'s subtree:
`y` is detached (`parent`/`schedule` are `None`), carries the same `name`,
`html_name`, `identification`, `sfb_code`, `description` and `is_text_only`,
a fresh `CostValue` with the same `unit_price`/`quantity`/`quantity_type`
(`category` and `description` reset to `""`), the same number and order of
children, each recursively a copy in the same sense (`CopyOf`), and
`y.subtotal = x.subtotal`; subsequently mutating any cost value of `y`
(for example setting `y.unit_price = 999`) does not change `x.subtotal`. -/
theorem claim_C5 (σ : CVStore) (nx : Nat) (x : CostItemR)
    (hb : ∀ id ∈ x.cvIds, id < nx) :
    (copyR x σ nx).1.name = x.name ∧
    (copyR x σ nx).1.html_name = x.html_name ∧
    (copyR x σ nx).1.identification = x.identification ∧
    (copyR x σ nx).1.sfb_code = x.sfb_code ∧
    (copyR x σ nx).1.description = x.description ∧
    (copyR x σ nx).1.is_text_only = x.is_text_only ∧
    (copyR x σ nx).1.parent = none ∧
    (copyR x σ nx).1.schedule = none ∧
    ((copyR x σ nx).2.1 ((copyR x σ nx).1.cvId)).unit_price = (σ x.cvId).unit_price ∧
    ((copyR x σ nx).2.1 ((copyR x σ nx).1.cvId)).quantity = (σ x.cvId).quantity ∧
    ((copyR x σ nx).2.1 ((copyR x σ nx).1.cvId)).quantity_type = (σ x.cvId).quantity_type ∧
    ((copyR x σ nx).2.1 ((copyR x σ nx).1.cvId)).category = "" ∧
    ((copyR x σ nx).2.1 ((copyR x σ nx).1.cvId)).description = "" ∧
    (copyR x σ nx).1.children.length = x.children.length ∧
    CopyOf σ ((copyR x σ nx).2.1) x ((copyR x σ nx).1) ∧
    CostItemR.subtotalR ((copyR x σ nx).2.1) ((copyR x σ nx).1)
      = CostItemR.subtotalR σ x ∧
    (∀ id ∈ (copyR x σ nx).1.cvIds, ∀ v : CostValue,
      CostItemR.subtotalR (updCV ((copyR x σ nx).2.1) id v) x
        = CostItemR.subtotalR σ x) := by
  have hs := copyR_spec x σ nx hb
  have hsub0 : CostItemR.subtotalR ((copyR x σ nx).2.1) x = CostItemR.subtotalR σ x := by
    refine subtotalR_congr _ _ x ?_
    intro id hid
    exact hs.preserved id (hb id hid)
  refine ⟨hs.name_eq, hs.html_eq, hs.ident_eq, hs.sfb_eq, hs.descr_eq, hs.text_eq,
    hs.parent_none, hs.schedule_none, ?_, ?_, ?_, ?_, ?_, hs.child_len,
    hs.copy_of, hs.sub_eq, ?_⟩
  · rw [hs.cv_id, hs.root_cv]; rfl
  · rw [hs.cv_id, hs.root_cv]; rfl
  · rw [hs.cv_id, hs.root_cv]; rfl
  · rw [hs.cv_id, hs.root_cv]; rfl
  · rw [hs.cv_id, hs.root_cv]; rfl
  · intro id hid v
    have hfresh := hs.fresh id hid
    have h1 : CostItemR.subtotalR (updCV ((copyR x σ nx).2.1) id v) x
        = CostItemR.subtotalR ((copyR x σ nx).2.1) x := by
      refine subtotalR_congr _ _ x ?_
      intro id2 hid2
      have : id2 < nx := hb id2 hid2
      exact updCV_other _ _ _ _ (by omega)
    rw [h1, hsub0]

/-- Witness for C5 on a concrete one-child item whose cost values occupy
store slots 0 and 1, copying with fresh ids from 2. -/
theorem claim_C5_witness :
    letI σ0 : CVStore := fun _ => { unit_price := 3, quantity := 4 }
    letI x : CostItemR := .mk "hoofdstuk" "" "01" "" "" false 0 none none
      [.mk "post" "" "01.01" "" "" false 1 (some ()) none []]
    (∀ id ∈ x.cvIds, id < 2) ∧
      (copyR x σ0 2).1.name = x.name ∧
      (copyR x σ0 2).1.children.length = x.children.length ∧
      CopyOf σ0 ((copyR x σ0 2).2.1) x ((copyR x σ0 2).1) ∧
      CostItemR.subtotalR ((copyR x σ0 2).2.1) ((copyR x σ0 2).1)
        = CostItemR.subtotalR σ0 x ∧
      (∀ id ∈ (copyR x σ0 2).1.cvIds, ∀ v : CostValue,
        CostItemR.subtotalR (updCV ((copyR x σ0 2).2.1) id v) x
          = CostItemR.subtotalR σ0 x) := by
  have hb : ∀ id ∈ (CostItemR.mk "hoofdstuk" "" "01" "" "" false 0 none none
      [.mk "post" "" "01.01" "" "" false 1 (some ()) none []]).cvIds, id < 2 := by
    intro id hid
    simp only [CostItemR.cvIds_mk, List.map_cons, List.map_nil, List.flatten,
      List.mem_cons, List.append_nil, List.mem_singleton] at hid
    rcases hid with rfl | hid
    · omega
    · simp at hid
      omega
  have hc := claim_C5 (fun _ => { unit_price := 3, quantity := 4 }) 2 _ hb
  obtain ⟨w1, w2, w3, w4, w5, w6, w7, w8, w9, w10, w11, w12, w13, w14, w15,
    w16, w17⟩ := hc
  exact ⟨hb, w1, w14, w15, w16, w17⟩

/-! ## The heap view (claims C3, C4, C6, C8)

Items live in a heap addressed by `ItemId` (modelling Python object
identity); a `CostSchedule`'s `items` list lives in a second table
addressed by `SchedId`.  `children` and `items` hold ids; `parent` and
`schedule` are the weak back-references.  Every mutation method of
cost_item.py / cost_schedule.py is translated with its update steps in
source order. -/

abbrev ItemId := Nat
abbrev SchedId := Nat

/-- The mutable fields of one `CostItem` object. -/
@[ext]
structure ItemData where
  name : String := ""
  html_name : String := ""
  identification : String := ""
  sfb_code : String := ""
  description : String := ""
  is_text_only : Bool := false
  cost_value : CostValue := {}
  children : List ItemId := []
  parent : Option ItemId := none
  schedule : Option SchedId := none
  deriving DecidableEq, Repr

/-- The object heap: every item object, plus every schedule's `items`
list. -/
@[ext]
structure State where
  heap : ItemId → ItemData
  scheds : SchedId → List ItemId

namespace State

def updItem (S : State) (i : ItemId) (f : ItemData → ItemData) : State :=
  { S with heap := fun j => if j = i then f (S.heap j) else S.heap j }

def updSched (S : State) (s : SchedId) (f : List ItemId → List ItemId) : State :=
  { S with scheds := fun u => if u = s then f (S.scheds u) else S.scheds u }

theorem updItem_heap_same (S : State) (i : ItemId) (f : ItemData → ItemData) :
    (S.updItem i f).heap i = f (S.heap i) := by
  simp [updItem]

theorem updItem_heap_other (S : State) (i j : ItemId) (f : ItemData → ItemData)
    (h : j ≠ i) : (S.updItem i f).heap j = S.heap j := by
  simp [updItem, h]

theorem updItem_scheds (S : State) (i : ItemId) (f : ItemData → ItemData) :
    (S.updItem i f).scheds = S.scheds := rfl

theorem updSched_same (S : State) (s : SchedId) (f : List ItemId → List ItemId) :
    (S.updSched s f).scheds s = f (S.scheds s) := by
  simp [updSched]

theorem updSched_other (S : State) (s u : SchedId) (f : List ItemId → List ItemId)
    (h : u ≠ s) : (S.updSched s f).scheds u = S.scheds u := by
  simp [updSched, h]

theorem updSched_heap (S : State) (s : SchedId) (f : List ItemId → List ItemId) :
    (S.updSched s f).heap = S.heap := rfl

end State

/-- Python `list.insert(index, x)`: a negative index counts from the end
and is floored at 0, an index beyond the end appends. -/
def pyInsert (l : List α) (idx : Int) (x : α) : List α :=
  let n : Nat := if idx < 0 then l.length - (-idx).toNat else min idx.toNat l.length
  l.insertIdx n x

theorem pyInsert_pos_le (l : List α) (idx : Int) (_x : α) :
    (if idx < 0 then l.length - (-idx).toNat else min idx.toNat l.length) ≤ l.length := by
  split
  · omega
  · exact Nat.min_le_right _ _

theorem mem_pyInsert (l : List α) (idx : Int) (x a : α) :
    a ∈ pyInsert l idx x ↔ a = x ∨ a ∈ l := by
  rw [pyInsert, List.mem_insertIdx (pyInsert_pos_le l idx x)]

theorem length_pyInsert (l : List α) (idx : Int) (x : α) :
    (pyInsert l idx x).length = l.length + 1 := by
  rw [pyInsert, List.length_insertIdx _ _ (pyInsert_pos_le l idx x)]

namespace State

/-- `CostItem.add_child`: set `child.parent`, set `child.schedule` from the
parent, append to `children`; steps in source order. -/
def add_child (S : State) (p c : ItemId) : State :=
  let S1 := S.updItem c (fun d => { d with parent := some p })
  let S2 := S1.updItem c (fun d => { d with schedule := (S1.heap p).schedule })
  S2.updItem p (fun d => { d with children := d.children ++ [c] })

/-- `CostItem.remove_child`: when `child` is a direct child, clear
`child.parent`/`child.schedule`, remove the first occurrence from
`children` and return true; otherwise a no-op returning false. -/
def remove_child (S : State) (p c : ItemId) : State × Bool :=
  if c ∈ (S.heap p).children then
    (((S.updItem c (fun d => { d with parent := none })).updItem c
        (fun d => { d with schedule := none })).updItem p
        (fun d => { d with children := d.children.erase c }), true)
  else (S, false)

/-- `CostItem.insert_child`: like `add_child` at a position. -/
def insert_child (S : State) (p : ItemId) (idx : Int) (c : ItemId) : State :=
  let S1 := S.updItem c (fun d => { d with parent := some p })
  let S2 := S1.updItem c (fun d => { d with schedule := (S1.heap p).schedule })
  S2.updItem p (fun d => { d with children := pyInsert d.children idx c })

/-- `CostSchedule.add_item`: set `item.schedule`, clear `item.parent`,
append to the schedule's `items`. -/
def add_item (S : State) (s : SchedId) (i : ItemId) : State :=
  let S1 := S.updItem i (fun d => { d with schedule := some s })
  let S2 := S1.updItem i (fun d => { d with parent := none })
  S2.updSched s (fun l => l ++ [i])

/-- `CostSchedule.remove_item`: when present, clear `item.schedule` and
remove from `items`. -/
def remove_item (S : State) (s : SchedId) (i : ItemId) : State × Bool :=
  if i ∈ S.scheds s then
    ((S.updItem i (fun d => { d with schedule := none })).updSched s
      (fun l => l.erase i), true)
  else (S, false)

/-- `CostSchedule.insert_item`. -/
def insert_item (S : State) (s : SchedId) (idx : Int) (i : ItemId) : State :=
  let S1 := S.updItem i (fun d => { d with schedule := some s })
  let S2 := S1.updItem i (fun d => { d with parent := none })
  S2.updSched s (fun l => pyInsert l idx i)

/-- `CostItem.get_child_index`: index of the first occurrence, or -1. -/
def get_child_index (S : State) (p c : ItemId) : Int :=
  if c ∈ (S.heap p).children then ((S.heap p).children.indexOf c : Int) else -1

/-- `CostItem.move_up`: no parent or first child (index ≤ 0) is a no-op
returning false; otherwise remove and re-insert one position earlier. -/
def move_up (S : State) (x : ItemId) : State × Bool :=
  match (S.heap x).parent with
  | none => (S, false)
  | some p =>
    if S.get_child_index p x ≤ 0 then (S, false)
    else
      ((S.updItem p (fun d => { d with children := d.children.erase x })).updItem p
        (fun d => { d with
          children := pyInsert d.children (S.get_child_index p x - 1) x }), true)

/-- `CostItem.move_down`: no parent, not found, or last child
(index ≥ len-1) is a no-op returning false; otherwise remove and
re-insert one position later. -/
def move_down (S : State) (x : ItemId) : State × Bool :=
  match (S.heap x).parent with
  | none => (S, false)
  | some p =>
    if S.get_child_index p x < 0 ∨
        ((S.heap p).children.length : Int) - 1 ≤ S.get_child_index p x then
      (S, false)
    else
      ((S.updItem p (fun d => { d with children := d.children.erase x })).updItem p
        (fun d => { d with
          children := pyInsert d.children (S.get_child_index p x + 1) x }), true)

/-- The `while item:` loop of `CostItem.get_path`, prepending each ancestor;
`fuel` bounds the loop, `none` models non-termination on a cyclic parent
chain (where the Python loop would not return). -/
def get_path_loop : Nat → State → Option ItemId → List ItemId → Option (List ItemId)
  | _, _, none, path => some path
  | 0, _, some _, _ => none
  | fuel + 1, S, some i, path => get_path_loop fuel S (S.heap i).parent (i :: path)

/-- `CostItem.get_path`: the chain from the forest root down to the item. -/
def get_path (fuel : Nat) (S : State) (x : ItemId) : Option (List ItemId) :=
  get_path_loop fuel S (S.heap x).parent [x]

/-- `CostItem.get_full_identification`: join the non-empty identifications
along `get_path`, root first. -/
def get_full_identification (fuel : Nat) (S : State) (x : ItemId)
    (separator : String) : Option String :=
  (get_path fuel S x).map (fun path =>
    String.intercalate separator
      ((path.map (fun i => (S.heap i).identification)).filter (fun t => t != "")))

/-- `CostItem.subtotal` over the heap, fuel-bounded: `none` models the
unbounded recursion Python would perform on a cyclic `children` graph. -/
def subtotal_fuel : Nat → State → ItemId → Option ℚ
  | 0, _, _ => none
  | fuel + 1, S, i =>
    if (S.heap i).is_text_only then some 0
    else if (S.heap i).children.length == 0 then some (S.heap i).cost_value.total
    else ((S.heap i).children.mapM (subtotal_fuel fuel S)).map List.sum

end State

theorem erase_append_self (l : List ItemId) (x : ItemId) (h : x ∉ l) :
    (l ++ [x]).erase x = l := by
  rw [List.erase_append_right _ h, List.erase_cons_head, List.append_nil]

/-- `add_child` leaves every object other than `c` and `p` untouched. -/
theorem add_child_heap_other (S : State) (p c j : ItemId) (hjc : j ≠ c)
    (hjp : j ≠ p) : (S.add_child p c).heap j = S.heap j := by
  simp [State.add_child, State.updItem, hjc, hjp]

/-- `add_child`'s effect on the attached child, `p ≠ c`. -/
theorem add_child_heap_child (S : State) (p c : ItemId) (hpc : p ≠ c) :
    (S.add_child p c).heap c =
      { S.heap c with parent := some p, schedule := (S.heap p).schedule } := by
  simp [State.add_child, State.updItem, hpc, Ne.symm hpc]

/-- `add_child`'s effect on the parent, `p ≠ c`. -/
theorem add_child_heap_parent (S : State) (p c : ItemId) (hpc : p ≠ c) :
    (S.add_child p c).heap p =
      { S.heap p with children := (S.heap p).children ++ [c] } := by
  simp [State.add_child, State.updItem, hpc, Ne.symm hpc]

/-- `x.add_child(x)` (degenerate self-attach): the schedule self-read is a
no-op, parent becomes `self`, `x` is appended to its own children. -/
theorem add_child_heap_self (S : State) (c : ItemId) :
    (S.add_child c c).heap c =
      { S.heap c with
        parent := some c
        children := (S.heap c).children ++ [c] } := by
  simp [State.add_child, State.updItem]

theorem add_child_scheds (S : State) (p c : ItemId) :
    (S.add_child p c).scheds = S.scheds := rfl

/-- **C4** — attach/detach round-trip: for a detached item `x` (no parent,
no schedule, not already among `p`'s children), `p.add_child(x)` followed
by `p.remove_child(x)` restores the state exactly: `x.parent` and
`x.schedule` are `None`, `x` is absent from `p.children`, `remove_child`
returned true, and `p.subtotal` is back at its pre-attach value. -/
theorem claim_C4 (S : State) (p x : ItemId)
    (hpar : (S.heap x).parent = none) (hsch : (S.heap x).schedule = none)
    (hmem : x ∉ (S.heap p).children) :
    (S.add_child p x).remove_child p x = (S, true) ∧
    (((S.add_child p x).remove_child p x).1.heap x).parent = none ∧
    (((S.add_child p x).remove_child p x).1.heap x).schedule = none ∧
    x ∉ (((S.add_child p x).remove_child p x).1.heap p).children ∧
    ∀ fuel, State.subtotal_fuel fuel ((S.add_child p x).remove_child p x).1 p
      = State.subtotal_fuel fuel S p := by
  have hc : x ∈ ((S.add_child p x).heap p).children := by
    by_cases hpx : p = x
    · subst hpx
      rw [add_child_heap_self]
      simp
    · rw [add_child_heap_parent S p x hpx]
      simp
  have hkey : (S.add_child p x).remove_child p x = (S, true) := by
    rw [State.remove_child, if_pos hc]
    refine congrArg (fun st => (st, true)) ?_
    refine State.ext ?_ rfl
    funext j
    by_cases hjx : j = x
    · by_cases hpx : p = x
      · rcases hde : S.heap x with ⟨n, h, idf, sfb, de, t, cv, cs, par, sch⟩
        have hp2 : par = none := by rw [hde] at hpar; exact hpar
        have hs2 : sch = none := by rw [hde] at hsch; exact hsch
        have hm2 : x ∉ cs := by rw [hpx, hde] at hmem; exact hmem
        simp [State.add_child, State.updItem, hjx, hpx, hde, hp2, hs2,
          erase_append_self _ _ hm2]
      · rcases hde : S.heap x with ⟨n, h, idf, sfb, de, t, cv, cs, par, sch⟩
        have hp2 : par = none := by rw [hde] at hpar; exact hpar
        have hs2 : sch = none := by rw [hde] at hsch; exact hsch
        simp [State.add_child, State.updItem, hjx, hpx, Ne.symm hpx, hde,
          hp2, hs2]
    · by_cases hjp : j = p
      · have hpx3 : ¬ p = x := fun hh => hjx (hjp.trans hh)
        rcases hdep : S.heap p with ⟨n, h, idf, sfb, de, t, cv, cs, par, sch⟩
        have hm3 : x ∉ cs := by rw [hdep] at hmem; exact hmem
        simp [State.add_child, State.updItem, hjp, hjx, hpx3, Ne.symm hpx3,
          hdep, erase_append_self _ _ hm3]
      · simp [State.add_child, State.updItem, hjx, hjp]
  refine ⟨hkey, ?_, ?_, ?_, ?_⟩ <;> rw [hkey]
  · exact hpar
  · exact hsch
  · exact hmem
  · intro fuel
    rfl

/-- Witness for C4: round-trip on a two-object heap of fresh items. -/
theorem claim_C4_witness :
    letI S : State := { heap := fun _ => {}, scheds := fun _ => [] }
    (S.add_child 0 1).remove_child 0 1 = (S, true) :=
  (claim_C4 { heap := fun _ => {}, scheds := fun _ => [] } 0 1 rfl rfl
    (by simp)).1

/-- `move_up` when the item has a parent: the boundary test against the
(first-occurrence) child index decides between no-op and reorder. -/
theorem move_up_of_parent (S : State) (x p : ItemId)
    (h : (S.heap x).parent = some p) :
    S.move_up x =
      (if S.get_child_index p x ≤ 0 then (S, false)
       else
        ((S.updItem p (fun d => { d with children := d.children.erase x })).updItem p
          (fun d => { d with
            children := pyInsert d.children (S.get_child_index p x - 1) x }), true)) := by
  rw [State.move_up, h]

/-- `move_down` when the item has a parent. -/
theorem move_down_of_parent (S : State) (x p : ItemId)
    (h : (S.heap x).parent = some p) :
    S.move_down x =
      (if S.get_child_index p x < 0 ∨
          ((S.heap p).children.length : Int) - 1 ≤ S.get_child_index p x then
        (S, false)
       else
        ((S.updItem p (fun d => { d with children := d.children.erase x })).updItem p
          (fun d => { d with
            children := pyInsert d.children (S.get_child_index p x + 1) x }), true)) := by
  rw [State.move_down, h]

/-- **C6** — invalid structural operations return false and change nothing:
`remove_child` on a non-child, `move_up` with no parent or as first child,
`move_down` with no parent or as last child. -/
theorem claim_C6 (S : State) (x p c : ItemId) :
    (c ∉ (S.heap p).children → S.remove_child p c = (S, false)) ∧
    ((S.heap x).parent = none →
      S.move_up x = (S, false) ∧ S.move_down x = (S, false)) ∧
    ((S.heap x).parent = some p → ∀ l, (S.heap p).children = x :: l →
      S.move_up x = (S, false)) ∧
    ((S.heap x).parent = some p → ∀ l, (S.heap p).children = l ++ [x] →
      x ∉ l → S.move_down x = (S, false)) := by
  refine ⟨fun hmem => ?_, fun hpar => ⟨?_, ?_⟩, fun hpar l hl => ?_,
    fun hpar l hl hx => ?_⟩
  · rw [State.remove_child, if_neg hmem]
  · rw [State.move_up, hpar]
  · rw [State.move_down, hpar]
  · have hidx : S.get_child_index p x = 0 := by
      rw [State.get_child_index, if_pos (by rw [hl]; exact List.mem_cons_self _ _),
        hl, List.indexOf_cons_self]
      rfl
    rw [move_up_of_parent S x p hpar, hidx, if_pos (by norm_num)]
  · have hmem2 : x ∈ (S.heap p).children := by
      rw [hl]
      exact List.mem_append_right _ (List.mem_singleton_self _)
    have hidx : S.get_child_index p x = (l.length : Int) := by
      rw [State.get_child_index, if_pos hmem2, hl,
        List.indexOf_append_of_not_mem hx, List.indexOf_cons_self]
      norm_num
    rw [move_down_of_parent S x p hpar, hidx, hl,
      if_pos (Or.inr (by simp [List.length_append]))]

/-- Witness for C6 on a concrete heap: item 2 is the only child of item 0;
its `move_up` and `move_down` are boundary no-ops, removing item 5 (not a
child) fails, and a parentless item cannot move. -/
theorem claim_C6_witness :
    letI S : State :=
      { heap := fun j =>
          if j = 0 then { children := [2] }
          else if j = 2 then { parent := some 0 }
          else {},
        scheds := fun _ => [] }
    S.remove_child 0 5 = (S, false) ∧
      S.move_up 1 = (S, false) ∧ S.move_down 1 = (S, false) ∧
      S.move_up 2 = (S, false) ∧ S.move_down 2 = (S, false) := by
  refine ⟨?_, ?_, ?_, ?_, ?_⟩
  · exact (claim_C6 _ 0 0 5).1 (by simp)
  · exact ((claim_C6 _ 1 0 0).2.1 (by simp)).1
  · exact ((claim_C6 _ 1 0 0).2.1 (by simp)).2
  · exact (claim_C6 _ 2 0 0).2.2.1 (by simp) [] (by simp)
  · exact (claim_C6 _ 2 0 0).2.2.2 (by simp) [] (by simp) (by simp)

/-- Characterization of the `get_path` while-loop: when it returns, the
produced prefix is the ancestor chain of the starting back-reference, in
root-to-leaf order. -/
theorem get_path_loop_spec : ∀ (fuel : Nat) (S : State) (oi : Option ItemId)
    (acc l : List ItemId), State.get_path_loop fuel S oi acc = some l →
    ∃ pre, l = pre ++ acc ∧
      (oi = none → pre = []) ∧
      (∀ i, oi = some i → pre ≠ [] ∧ pre.getLast? = some i ∧
        (∀ r, pre.head? = some r → (S.heap r).parent = none) ∧
        List.Chain' (fun a b => (S.heap b).parent = some a) pre)
  | fuel, S, none, acc, l => fun hl => by
    refine ⟨[], ?_, fun _ => rfl, fun i hi => Option.noConfusion hi⟩
    cases fuel <;> (rw [State.get_path_loop] at hl; injection hl; simp [*])
  | 0, S, some i, acc, l => fun hl => by
    rw [State.get_path_loop] at hl
    exact Option.noConfusion hl
  | fuel + 1, S, some i, acc, l => fun hl => by
    rw [State.get_path_loop] at hl
    obtain ⟨pre, hpre, hnone, hsome⟩ :=
      get_path_loop_spec fuel S ((S.heap i).parent) (i :: acc) l hl
    refine ⟨pre ++ [i], by simp [hpre], fun hco => Option.noConfusion hco,
      fun k hk => ?_⟩
    injection hk with hk
    subst hk
    refine ⟨by simp, by simp, ?_, ?_⟩
    · intro r hr
      rcases hp : (S.heap i).parent with _ | q
      · have : pre = [] := hnone hp
        subst this
        simp at hr
        subst hr
        exact hp
      · obtain ⟨hne, hlast, hhead, hchain⟩ := hsome q hp
        rw [List.head?_append_of_ne_nil _ hne] at hr
        exact hhead r hr
    · rw [List.chain'_append]
      refine ⟨?_, List.chain'_singleton _, ?_⟩
      · rcases hp : (S.heap i).parent with _ | q
        · rw [hnone hp]
          exact List.chain'_nil
        · exact (hsome q hp).2.2.2
      · intro a ha b hb
        simp at hb
        subst hb
        rcases hp : (S.heap i).parent with _ | q
        · rw [hnone hp] at ha
          simp at ha
        · obtain ⟨hne, hlast, hhead, hchain⟩ := hsome q hp
          rw [hlast] at ha
          simp at ha
          subst ha
          simp [hp]

/-- **C8** — `get_full_identification(separator)` joins the non-empty
`identification` values of the nodes on the root-to-leaf path (terminating
parent chain) with the separator, without deduplication; concretely, a
root "01" with child leaf "01.05" yields "01.01.05". -/
theorem claim_C8 :
    (∀ (fuel : Nat) (S : State) (x : ItemId) (l : List ItemId) (sep : String),
      State.get_path fuel S x = some l →
      l ≠ [] ∧ l.getLast? = some x ∧
      (∀ r, l.head? = some r → (S.heap r).parent = none) ∧
      List.Chain' (fun a b => (S.heap b).parent = some a) l ∧
      State.get_full_identification fuel S x sep =
        some (String.intercalate sep
          ((l.map (fun i => (S.heap i).identification)).filter
            (fun t => t != "")))) ∧
    State.get_full_identification 5
      { heap := fun j => if j = 0 then { identification := "01" }
          else if j = 1 then { identification := "01.05", parent := some 0 }
          else {},
        scheds := fun _ => [] } 1 "." = some "01.01.05" := by
  constructor
  · intro fuel S x l sep hl
    obtain ⟨pre, hpre, hnone, hsome⟩ :=
      get_path_loop_spec fuel S ((S.heap x).parent) [x] l hl
    have hfull : State.get_full_identification fuel S x sep =
        some (String.intercalate sep
          ((l.map (fun i => (S.heap i).identification)).filter
            (fun t => t != ""))) := by
      rw [State.get_full_identification, hl]
      rfl
    subst hpre
    refine ⟨by simp, by simp, ?_, ?_, hfull⟩
    · intro r hr
      rcases hp : (S.heap x).parent with _ | q
      · have : pre = [] := hnone hp
        subst this
        simp at hr
        subst hr
        exact hp
      · obtain ⟨hne, hlast, hhead, hchain⟩ := hsome q hp
        rw [List.head?_append_of_ne_nil _ hne] at hr
        exact hhead r hr
    · rw [List.chain'_append]
      refine ⟨?_, List.chain'_singleton _, ?_⟩
      · rcases hp : (S.heap x).parent with _ | q
        · rw [hnone hp]
          exact List.chain'_nil
        · exact (hsome q hp).2.2.2
      · intro a ha b hb
        simp at hb
        subst hb
        rcases hp : (S.heap x).parent with _ | q
        · rw [hnone hp] at ha
          simp at ha
        · obtain ⟨hne, hlast, hhead, hchain⟩ := hsome q hp
          rw [hlast] at ha
          simp at ha
          subst ha
          simp [hp]
  · rfl

/-- Witness for C8: on the two-node heap (root "01", leaf "01.05"), the
path returned for the leaf is `[0, 1]`, is a root-to-leaf parent chain,
and the joined identification is "01.01.05". -/
theorem claim_C8_witness :
    letI S : State :=
      { heap := fun j => if j = 0 then { identification := "01" }
          else if j = 1 then { identification := "01.05", parent := some 0 }
          else {},
        scheds := fun _ => [] }
    State.get_path 5 S 1 = some [0, 1] ∧
      ([0, 1] : List ItemId).getLast? = some 1 ∧
      List.Chain' (fun a b => (S.heap b).parent = some a) [0, 1] ∧
      State.get_full_identification 5 S 1 "." =
        some (String.intercalate "."
          ((([0, 1] : List ItemId).map (fun i => (S.heap i).identification)).filter
            (fun t => t != ""))) := by
  have hmain := claim_C8.1 5
    { heap := fun j => if j = 0 then { identification := "01" }
        else if j = 1 then { identification := "01.05", parent := some 0 }
        else {},
      scheds := fun _ => [] } 1 [0, 1] "." rfl
  exact ⟨rfl, hmain.2.1, hmain.2.2.2.1, hmain.2.2.2.2⟩

/-! ## Claim C3: back-reference consistency under mutation sequences -/

theorem insertIdx_perm (x : α) : ∀ (n : Nat) (l : List α), n ≤ l.length →
    List.Perm (l.insertIdx n x) (x :: l)
  | 0, l, _ => by simp
  | n + 1, [], h => by simp at h
  | n + 1, a :: l, h => by
    rw [List.insertIdx_succ_cons]
    exact ((insertIdx_perm x n l (by simpa using h)).cons a).trans
      (List.Perm.swap x a l)

theorem pyInsert_perm (l : List α) (idx : Int) (x : α) :
    List.Perm (pyInsert l idx x) (x :: l) :=
  insertIdx_perm x _ l (pyInsert_pos_le l idx x)

theorem nodup_pyInsert (l : List α) (idx : Int) (x : α) (hx : x ∉ l)
    (hl : l.Nodup) : (pyInsert l idx x).Nodup :=
  ((pyInsert_perm l idx x).nodup_iff).2 (List.nodup_cons.2 ⟨hx, hl⟩)

/-- Pointwise characterization of `add_child`. -/
theorem add_child_heap_cases (S : State) (p c j : ItemId) :
    (S.add_child p c).heap j =
      { S.heap j with
        parent := if j = c then some p else (S.heap j).parent
        schedule := if j = c then (S.heap p).schedule else (S.heap j).schedule
        children := if j = p then (S.heap p).children ++ [c]
          else (S.heap j).children } := by
  by_cases hjc : j = c
  · by_cases hjp : j = p
    · have hcp : c = p := hjc.symm.trans hjp
      simp [State.add_child, State.updItem, hjc, hcp]
    · have hcp : ¬ c = p := fun hh => hjp (hjc.trans hh)
      have hpc : ¬ p = c := fun hh => hcp hh.symm
      simp [State.add_child, State.updItem, hjc, hcp, hpc]
  · by_cases hjp : j = p
    · have hpc : ¬ p = c := fun hh => hjc (hjp.trans hh)
      have hcp : ¬ c = p := fun hh => hpc hh.symm
      simp [State.add_child, State.updItem, hjp, hjc, hpc, hcp]
    · simp [State.add_child, State.updItem, hjc, hjp]

theorem add_child_children (S : State) (p c j : ItemId) :
    ((S.add_child p c).heap j).children =
      (if j = p then (S.heap p).children ++ [c] else (S.heap j).children) := by
  rw [add_child_heap_cases]

theorem add_child_parent (S : State) (p c j : ItemId) :
    ((S.add_child p c).heap j).parent =
      (if j = c then some p else (S.heap j).parent) := by
  rw [add_child_heap_cases]

theorem add_child_schedule (S : State) (p c j : ItemId) :
    ((S.add_child p c).heap j).schedule =
      (if j = c then (S.heap p).schedule else (S.heap j).schedule) := by
  rw [add_child_heap_cases]

theorem insert_child_scheds (S : State) (p : ItemId) (idx : Int) (c : ItemId) :
    (S.insert_child p idx c).scheds = S.scheds := rfl

/-- Pointwise characterization of `insert_child`. -/
theorem insert_child_heap_cases (S : State) (p : ItemId) (idx : Int) (c j : ItemId) :
    (S.insert_child p idx c).heap j =
      { S.heap j with
        parent := if j = c then some p else (S.heap j).parent
        schedule := if j = c then (S.heap p).schedule else (S.heap j).schedule
        children := if j = p then pyInsert (S.heap p).children idx c
          else (S.heap j).children } := by
  by_cases hjc : j = c
  · by_cases hjp : j = p
    · have hcp : c = p := hjc.symm.trans hjp
      simp [State.insert_child, State.updItem, hjc, hcp]
    · have hcp : ¬ c = p := fun hh => hjp (hjc.trans hh)
      have hpc : ¬ p = c := fun hh => hcp hh.symm
      simp [State.insert_child, State.updItem, hjc, hcp, hpc]
  · by_cases hjp : j = p
    · have hpc : ¬ p = c := fun hh => hjc (hjp.trans hh)
      have hcp : ¬ c = p := fun hh => hpc hh.symm
      simp [State.insert_child, State.updItem, hjp, hjc, hpc, hcp]
    · simp [State.insert_child, State.updItem, hjc, hjp]

theorem remove_child_scheds (S : State) (p c : ItemId) :
    ((S.remove_child p c).1).scheds = S.scheds := by
  rw [State.remove_child]
  split <;> rfl

theorem remove_child_not_mem (S : State) (p c : ItemId)
    (h : c ∉ (S.heap p).children) : S.remove_child p c = (S, false) := by
  rw [State.remove_child, if_neg h]

/-- Pointwise characterization of `remove_child` when `c` is a child. -/
theorem remove_child_heap_cases (S : State) (p c : ItemId)
    (h : c ∈ (S.heap p).children) (j : ItemId) :
    ((S.remove_child p c).1).heap j =
      { S.heap j with
        parent := if j = c then none else (S.heap j).parent
        schedule := if j = c then none else (S.heap j).schedule
        children := if j = p then (S.heap p).children.erase c
          else (S.heap j).children } := by
  rw [State.remove_child, if_pos h]
  by_cases hjc : j = c
  · by_cases hjp : j = p
    · have hcp : c = p := hjc.symm.trans hjp
      simp [State.updItem, hjc, hcp]
    · have hcp : ¬ c = p := fun hh => hjp (hjc.trans hh)
      have hpc : ¬ p = c := fun hh => hcp hh.symm
      simp [State.updItem, hjc, hcp, hpc]
  · by_cases hjp : j = p
    · have hpc : ¬ p = c := fun hh => hjc (hjp.trans hh)
      have hcp : ¬ c = p := fun hh => hpc hh.symm
      simp [State.updItem, hjp, hjc, hpc, hcp]
    · simp [State.updItem, hjc, hjp]

/-- Pointwise characterization of `add_item` (heap side). -/
theorem add_item_heap_cases (S : State) (s : SchedId) (i j : ItemId) :
    (S.add_item s i).heap j =
      { S.heap j with
        parent := if j = i then none else (S.heap j).parent
        schedule := if j = i then some s else (S.heap j).schedule } := by
  by_cases hji : j = i
  · simp [State.add_item, State.updItem, State.updSched, hji]
  · simp [State.add_item, State.updItem, State.updSched, hji]

theorem add_item_scheds (S : State) (s : SchedId) (i : ItemId) (u : SchedId) :
    (S.add_item s i).scheds u =
      (if u = s then S.scheds s ++ [i] else S.scheds u) := by
  by_cases hus : u = s
  · simp [State.add_item, State.updItem, State.updSched, hus]
  · simp [State.add_item, State.updItem, State.updSched, hus]

/-- Pointwise characterization of `insert_item` (heap side). -/
theorem insert_item_heap_cases (S : State) (s : SchedId) (idx : Int) (i j : ItemId) :
    (S.insert_item s idx i).heap j =
      { S.heap j with
        parent := if j = i then none else (S.heap j).parent
        schedule := if j = i then some s else (S.heap j).schedule } := by
  by_cases hji : j = i
  · simp [State.insert_item, State.updItem, State.updSched, hji]
  · simp [State.insert_item, State.updItem, State.updSched, hji]

theorem insert_item_scheds (S : State) (s : SchedId) (idx : Int) (i : ItemId)
    (u : SchedId) :
    (S.insert_item s idx i).scheds u =
      (if u = s then pyInsert (S.scheds s) idx i else S.scheds u) := by
  by_cases hus : u = s
  · simp [State.insert_item, State.updItem, State.updSched, hus]
  · simp [State.insert_item, State.updItem, State.updSched, hus]

theorem remove_item_not_mem (S : State) (s : SchedId) (i : ItemId)
    (h : i ∉ S.scheds s) : S.remove_item s i = (S, false) := by
  rw [State.remove_item, if_neg h]

/-- Pointwise characterization of `remove_item` when `i` is a root item. -/
theorem remove_item_heap_cases (S : State) (s : SchedId) (i : ItemId)
    (h : i ∈ S.scheds s) (j : ItemId) :
    ((S.remove_item s i).1).heap j =
      { S.heap j with
        schedule := if j = i then none else (S.heap j).schedule } := by
  rw [State.remove_item, if_pos h]
  by_cases hji : j = i
  · simp [State.updItem, State.updSched, hji]
  · simp [State.updItem, State.updSched, hji]

theorem remove_item_scheds (S : State) (s : SchedId) (i : ItemId)
    (h : i ∈ S.scheds s) (u : SchedId) :
    ((S.remove_item s i).1).scheds u =
      (if u = s then (S.scheds s).erase i else S.scheds u) := by
  rw [State.remove_item, if_pos h]
  by_cases hus : u = s
  · simp [State.updItem, State.updSched, hus]
  · simp [State.updItem, State.updSched, hus]

/-- The six structural mutation operations of claim C3. -/
inductive Op where
  | add_child (p c : ItemId)
  | insert_child (p : ItemId) (idx : Int) (c : ItemId)
  | remove_child (p c : ItemId)
  | add_item (s : SchedId) (i : ItemId)
  | insert_item (s : SchedId) (idx : Int) (i : ItemId)
  | remove_item (s : SchedId) (i : ItemId)

/-- Apply one operation (the boolean result of the removals is dropped;
only the state matters for the invariant). -/
def applyOp (S : State) : Op → State
  | .add_child p c => S.add_child p c
  | .insert_child p idx c => S.insert_child p idx c
  | .remove_child p c => (S.remove_child p c).1
  | .add_item s i => S.add_item s i
  | .insert_item s idx i => S.insert_item s idx i
  | .remove_item s i => (S.remove_item s i).1

def applyOps (S : State) : List Op → State
  | [] => S
  | op :: ops => applyOps (applyOp S op) ops

/-- An item that no children list and no schedule's items list references:
the state of a freshly constructed or just-detached node, which is how the
source's callers invoke the attach operations. -/
def Unreferenced (S : State) (x : ItemId) : Prop :=
  (∀ p, x ∉ (S.heap p).children) ∧ ∀ s, x ∉ S.scheds s

/-- Validity of one operation: attaching requires the argument to be
detached (unreferenced); detaching is always allowed. -/
def ValidOp (S : State) : Op → Prop
  | .add_child _ c => Unreferenced S c
  | .insert_child _ _ c => Unreferenced S c
  | .remove_child _ _ => True
  | .add_item _ i => Unreferenced S i
  | .insert_item _ _ i => Unreferenced S i
  | .remove_item _ _ => True

/-- A sequence of operations, each valid in the state it runs in. -/
inductive ValidOps : State → List Op → Prop
  | nil (S : State) : ValidOps S []
  | cons (S : State) (op : Op) (ops : List Op) : ValidOp S op →
      ValidOps (applyOp S op) ops → ValidOps S (op :: ops)

/-- Back-reference consistency: every member of a children list points
back to the list's owner, every root item of a schedule has no parent and
points to that schedule, and no list repeats an element. -/
structure Consistent (S : State) : Prop where
  parent_ok : ∀ p c, c ∈ (S.heap p).children → (S.heap c).parent = some p
  root_parent : ∀ s i, i ∈ S.scheds s → (S.heap i).parent = none
  root_schedule : ∀ s i, i ∈ S.scheds s → (S.heap i).schedule = some s
  children_nodup : ∀ p, (S.heap p).children.Nodup
  items_nodup : ∀ s, (S.scheds s).Nodup

/-- In a consistent state a child is not also a root item. -/
theorem Consistent.child_not_root {S : State} (hS : Consistent S)
    {p c : ItemId} {s : SchedId} (hc : c ∈ (S.heap p).children) :
    c ∉ S.scheds s := fun hs => by
  have h1 := hS.parent_ok p c hc
  have h2 := hS.root_parent s c hs
  rw [h1] at h2
  exact Option.noConfusion h2

/-- In a consistent state a child has a unique parent. -/
theorem Consistent.child_unique {S : State} (hS : Consistent S)
    {p q c : ItemId} (hp : c ∈ (S.heap p).children)
    (hq : c ∈ (S.heap q).children) : p = q := by
  have h1 := hS.parent_ok p c hp
  have h2 := hS.parent_ok q c hq
  rw [h1] at h2
  injection h2

/-- In a consistent state a root item belongs to a unique schedule. -/
theorem Consistent.item_unique {S : State} (hS : Consistent S)
    {s t : SchedId} {i : ItemId} (hs : i ∈ S.scheds s)
    (ht : i ∈ S.scheds t) : s = t := by
  have h1 := hS.root_schedule s i hs
  have h2 := hS.root_schedule t i ht
  rw [h1] at h2
  injection h2

/-- `add_child` preserves consistency when the child is detached. -/
theorem consistent_add_child (S : State) (p c : ItemId) (hS : Consistent S)
    (hu : Unreferenced S c) : Consistent (S.add_child p c) := by
  obtain ⟨hu1, hu2⟩ := hu
  refine ⟨?_, ?_, ?_, ?_, ?_⟩
  · intro q d hd
    rw [add_child_children] at hd
    rw [add_child_parent]
    by_cases hqp : q = p
    · rw [if_pos hqp] at hd
      rcases List.mem_append.1 hd with hd | hd
      · have hdc : ¬ d = c := fun hh => hu1 p (hh ▸ hd)
        rw [if_neg hdc, hqp]
        exact hS.parent_ok p d hd
      · rw [List.mem_singleton] at hd
        rw [if_pos hd, hqp]
    · rw [if_neg hqp] at hd
      have hdc : ¬ d = c := fun hh => hu1 q (hh ▸ hd)
      rw [if_neg hdc]
      exact hS.parent_ok q d hd
  · intro s i hi
    rw [add_child_scheds] at hi
    rw [add_child_parent]
    have hic : ¬ i = c := fun hh => hu2 s (hh ▸ hi)
    rw [if_neg hic]
    exact hS.root_parent s i hi
  · intro s i hi
    rw [add_child_scheds] at hi
    rw [add_child_schedule]
    have hic : ¬ i = c := fun hh => hu2 s (hh ▸ hi)
    rw [if_neg hic]
    exact hS.root_schedule s i hi
  · intro q
    rw [add_child_children]
    by_cases hqp : q = p
    · rw [if_pos hqp]
      refine List.Nodup.append (hS.children_nodup p) (List.nodup_singleton c) ?_
      intro a ha hb
      rw [List.mem_singleton] at hb
      exact hu1 p (hb ▸ ha)
    · rw [if_neg hqp]
      exact hS.children_nodup q
  · intro s
    rw [add_child_scheds]
    exact hS.items_nodup s

/-- `insert_child` preserves consistency when the child is detached. -/
theorem consistent_insert_child (S : State) (p : ItemId) (idx : Int)
    (c : ItemId) (hS : Consistent S) (hu : Unreferenced S c) :
    Consistent (S.insert_child p idx c) := by
  obtain ⟨hu1, hu2⟩ := hu
  refine ⟨?_, ?_, ?_, ?_, ?_⟩
  · intro q d hd
    rw [insert_child_heap_cases] at hd
    simp only at hd
    rw [insert_child_heap_cases]
    simp only
    by_cases hqp : q = p
    · rw [if_pos hqp] at hd
      rcases (mem_pyInsert _ _ _ _).1 hd with hd | hd
      · rw [if_pos hd, hqp]
      · have hdc : ¬ d = c := fun hh => hu1 p (hh ▸ hd)
        rw [if_neg hdc, hqp]
        exact hS.parent_ok p d hd
    · rw [if_neg hqp] at hd
      have hdc : ¬ d = c := fun hh => hu1 q (hh ▸ hd)
      rw [if_neg hdc]
      exact hS.parent_ok q d hd
  · intro s i hi
    rw [insert_child_scheds] at hi
    rw [insert_child_heap_cases]
    simp only
    have hic : ¬ i = c := fun hh => hu2 s (hh ▸ hi)
    rw [if_neg hic]
    exact hS.root_parent s i hi
  · intro s i hi
    rw [insert_child_scheds] at hi
    rw [insert_child_heap_cases]
    simp only
    have hic : ¬ i = c := fun hh => hu2 s (hh ▸ hi)
    rw [if_neg hic]
    exact hS.root_schedule s i hi
  · intro q
    rw [insert_child_heap_cases]
    simp only
    by_cases hqp : q = p
    · rw [if_pos hqp]
      exact nodup_pyInsert _ _ _ (hu1 p) (hS.children_nodup p)
    · rw [if_neg hqp]
      exact hS.children_nodup q
  · intro s
    rw [insert_child_scheds]
    exact hS.items_nodup s

/-- `remove_child` preserves consistency unconditionally. -/
theorem consistent_remove_child (S : State) (p c : ItemId)
    (hS : Consistent S) : Consistent ((S.remove_child p c).1) := by
  by_cases hmem : c ∈ (S.heap p).children
  · refine ⟨?_, ?_, ?_, ?_, ?_⟩
    · intro q d hd
      rw [remove_child_heap_cases S p c hmem] at hd
      simp only at hd
      rw [remove_child_heap_cases S p c hmem]
      simp only
      by_cases hqp : q = p
      · rw [if_pos hqp] at hd
        have hd2 := ((hS.children_nodup p).mem_erase_iff).1 hd
        have hdc : ¬ d = c := hd2.1
        rw [if_neg hdc, hqp]
        exact hS.parent_ok p d hd2.2
      · rw [if_neg hqp] at hd
        have hdc : ¬ d = c := fun hh => hqp (hS.child_unique (hh ▸ hd) hmem)
        rw [if_neg hdc]
        exact hS.parent_ok q d hd
    · intro s i hi
      rw [remove_child_scheds] at hi
      rw [remove_child_heap_cases S p c hmem]
      simp only
      have hic : ¬ i = c := fun hh => hS.child_not_root hmem (hh ▸ hi)
      rw [if_neg hic]
      exact hS.root_parent s i hi
    · intro s i hi
      rw [remove_child_scheds] at hi
      rw [remove_child_heap_cases S p c hmem]
      simp only
      have hic : ¬ i = c := fun hh => hS.child_not_root hmem (hh ▸ hi)
      rw [if_neg hic]
      exact hS.root_schedule s i hi
    · intro q
      rw [remove_child_heap_cases S p c hmem]
      simp only
      by_cases hqp : q = p
      · rw [if_pos hqp]
        exact (hS.children_nodup p).erase c
      · rw [if_neg hqp]
        exact hS.children_nodup q
    · intro s
      rw [remove_child_scheds]
      exact hS.items_nodup s
  · rw [remove_child_not_mem S p c hmem]
    exact hS

/-- `add_item` preserves consistency when the item is detached. -/
theorem consistent_add_item (S : State) (s : SchedId) (i : ItemId)
    (hS : Consistent S) (hu : Unreferenced S i) :
    Consistent (S.add_item s i) := by
  obtain ⟨hu1, hu2⟩ := hu
  refine ⟨?_, ?_, ?_, ?_, ?_⟩
  · intro q d hd
    rw [add_item_heap_cases] at hd
    simp only at hd
    rw [add_item_heap_cases]
    simp only
    have hdi : ¬ d = i := fun hh => hu1 q (hh ▸ hd)
    rw [if_neg hdi]
    exact hS.parent_ok q d hd
  · intro t j hj
    rw [add_item_scheds] at hj
    rw [add_item_heap_cases]
    simp only
    by_cases hts : t = s
    · rw [if_pos hts] at hj
      rcases List.mem_append.1 hj with hj | hj
      · have hji : ¬ j = i := fun hh => hu2 s (hh ▸ hj)
        rw [if_neg hji]
        exact hS.root_parent s j hj
      · rw [List.mem_singleton] at hj
        rw [if_pos hj]
    · rw [if_neg hts] at hj
      have hji : ¬ j = i := fun hh => hu2 t (hh ▸ hj)
      rw [if_neg hji]
      exact hS.root_parent t j hj
  · intro t j hj
    rw [add_item_scheds] at hj
    rw [add_item_heap_cases]
    simp only
    by_cases hts : t = s
    · rw [if_pos hts] at hj
      rcases List.mem_append.1 hj with hj | hj
      · have hji : ¬ j = i := fun hh => hu2 s (hh ▸ hj)
        rw [if_neg hji, hts]
        exact hS.root_schedule s j hj
      · rw [List.mem_singleton] at hj
        rw [if_pos hj, hts]
    · rw [if_neg hts] at hj
      have hji : ¬ j = i := fun hh => hu2 t (hh ▸ hj)
      rw [if_neg hji]
      exact hS.root_schedule t j hj
  · intro q
    rw [add_item_heap_cases]
    simp only
    exact hS.children_nodup q
  · intro t
    rw [add_item_scheds]
    by_cases hts : t = s
    · rw [if_pos hts]
      refine List.Nodup.append (hS.items_nodup s) (List.nodup_singleton i) ?_
      intro a ha hb
      rw [List.mem_singleton] at hb
      exact hu2 s (hb ▸ ha)
    · rw [if_neg hts]
      exact hS.items_nodup t

/-- `insert_item` preserves consistency when the item is detached. -/
theorem consistent_insert_item (S : State) (s : SchedId) (idx : Int)
    (i : ItemId) (hS : Consistent S) (hu : Unreferenced S i) :
    Consistent (S.insert_item s idx i) := by
  obtain ⟨hu1, hu2⟩ := hu
  refine ⟨?_, ?_, ?_, ?_, ?_⟩
  · intro q d hd
    rw [insert_item_heap_cases] at hd
    simp only at hd
    rw [insert_item_heap_cases]
    simp only
    have hdi : ¬ d = i := fun hh => hu1 q (hh ▸ hd)
    rw [if_neg hdi]
    exact hS.parent_ok q d hd
  · intro t j hj
    rw [insert_item_scheds] at hj
    rw [insert_item_heap_cases]
    simp only
    by_cases hts : t = s
    · rw [if_pos hts] at hj
      rcases (mem_pyInsert _ _ _ _).1 hj with hj | hj
      · rw [if_pos hj]
      · have hji : ¬ j = i := fun hh => hu2 s (hh ▸ hj)
        rw [if_neg hji]
        exact hS.root_parent s j hj
    · rw [if_neg hts] at hj
      have hji : ¬ j = i := fun hh => hu2 t (hh ▸ hj)
      rw [if_neg hji]
      exact hS.root_parent t j hj
  · intro t j hj
    rw [insert_item_scheds] at hj
    rw [insert_item_heap_cases]
    simp only
    by_cases hts : t = s
    · rw [if_pos hts] at hj
      rcases (mem_pyInsert _ _ _ _).1 hj with hj | hj
      · rw [if_pos hj, hts]
      · have hji : ¬ j = i := fun hh => hu2 s (hh ▸ hj)
        rw [if_neg hji, hts]
        exact hS.root_schedule s j hj
    · rw [if_neg hts] at hj
      have hji : ¬ j = i := fun hh => hu2 t (hh ▸ hj)
      rw [if_neg hji]
      exact hS.root_schedule t j hj
  · intro q
    rw [insert_item_heap_cases]
    simp only
    exact hS.children_nodup q
  · intro t
    rw [insert_item_scheds]
    by_cases hts : t = s
    · rw [if_pos hts]
      exact nodup_pyInsert _ _ _ (hu2 s) (hS.items_nodup s)
    · rw [if_neg hts]
      exact hS.items_nodup t

/-- `remove_item` preserves consistency unconditionally. -/
theorem consistent_remove_item (S : State) (s : SchedId) (i : ItemId)
    (hS : Consistent S) : Consistent ((S.remove_item s i).1) := by
  by_cases hmem : i ∈ S.scheds s
  · refine ⟨?_, ?_, ?_, ?_, ?_⟩
    · intro q d hd
      rw [remove_item_heap_cases S s i hmem] at hd
      simp only at hd
      rw [remove_item_heap_cases S s i hmem]
      simp only
      exact hS.parent_ok q d hd
    · intro t j hj
      rw [remove_item_scheds S s i hmem] at hj
      rw [remove_item_heap_cases S s i hmem]
      simp only
      by_cases hts : t = s
      · rw [if_pos hts] at hj
        exact hS.root_parent s j (List.mem_of_mem_erase hj)
      · rw [if_neg hts] at hj
        exact hS.root_parent t j hj
    · intro t j hj
      rw [remove_item_scheds S s i hmem] at hj
      rw [remove_item_heap_cases S s i hmem]
      simp only
      by_cases hts : t = s
      · rw [if_pos hts] at hj
        have hj2 := ((hS.items_nodup s).mem_erase_iff).1 hj
        rw [if_neg hj2.1, hts]
        exact hS.root_schedule s j hj2.2
      · rw [if_neg hts] at hj
        have hji : ¬ j = i := fun hh => hts (hS.item_unique (hh ▸ hj) hmem)
        rw [if_neg hji]
        exact hS.root_schedule t j hj
    · intro q
      rw [remove_item_heap_cases S s i hmem]
      simp only
      exact hS.children_nodup q
    · intro t
      rw [remove_item_scheds S s i hmem]
      by_cases hts : t = s
      · rw [if_pos hts]
        exact (hS.items_nodup s).erase i
      · rw [if_neg hts]
        exact hS.items_nodup t
  · rw [remove_item_not_mem S s i hmem]
    exact hS

theorem consistent_applyOp (S : State) (op : Op) (hS : Consistent S)
    (hv : ValidOp S op) : Consistent (applyOp S op) := by
  cases op with
  | add_child p c => exact consistent_add_child S p c hS hv
  | insert_child p idx c => exact consistent_insert_child S p idx c hS hv
  | remove_child p c => exact consistent_remove_child S p c hS
  | add_item s i => exact consistent_add_item S s i hS hv
  | insert_item s idx i => exact consistent_insert_item S s idx i hS hv
  | remove_item s i => exact consistent_remove_item S s i hS

theorem consistent_applyOps : ∀ (ops : List Op) (S : State), Consistent S →
    ValidOps S ops → Consistent (applyOps S ops)
  | [], S, hS, _ => hS
  | op :: ops, S, hS, hv => by
    cases hv with
    | cons _ _ _ hop hops =>
      exact consistent_applyOps ops (applyOp S op)
        (consistent_applyOp S op hS hop) hops

/-- Items reachable from a schedule's root items by following children
lists — the transitive reach over which the original claim quantifies. -/
inductive Reachable (S : State) (s : SchedId) : ItemId → Prop
  | root (i : ItemId) : i ∈ S.scheds s → Reachable S s i
  | child (p c : ItemId) : Reachable S s p → c ∈ (S.heap p).children →
      Reachable S s c

/-- **C3 counterexample** — the schedule back-reference is not propagated
transitively: starting from an empty consistent state, `r.add_child(c)`
followed by `schedule.add_item(r)` (a valid sequence: both arguments are
detached when attached) leaves the grandchild-level item `c = 1` reachable
from the schedule's items, yet with `c.schedule = None`, not the schedule.
-/
theorem claim_C3_counterexample :
    Consistent { heap := fun _ => {}, scheds := fun _ => [] } ∧
    ValidOps { heap := fun _ => {}, scheds := fun _ => [] }
      [Op.add_child 0 1, Op.add_item 0 0] ∧
    Reachable (applyOps { heap := fun _ => {}, scheds := fun _ => [] }
      [Op.add_child 0 1, Op.add_item 0 0]) 0 1 ∧
    ((applyOps { heap := fun _ => {}, scheds := fun _ => [] }
      [Op.add_child 0 1, Op.add_item 0 0]).heap 1).schedule = none ∧
    ¬ ((applyOps { heap := fun _ => {}, scheds := fun _ => [] }
      [Op.add_child 0 1, Op.add_item 0 0]).heap 1).schedule = some 0 := by
  refine ⟨⟨?_, ?_, ?_, ?_, ?_⟩, ?_, ?_, ?_, ?_⟩
  · intro p c hc
    simp at hc
  · intro s i hi
    simp at hi
  · intro s i hi
    simp at hi
  · intro p
    simp
  · intro s
    simp
  · refine ValidOps.cons _ _ _ ⟨fun p => ?_, fun s => ?_⟩
      (ValidOps.cons _ _ _ ⟨fun p => ?_, fun s => ?_⟩ (ValidOps.nil _))
    · simp
    · simp
    · rw [applyOp, add_child_children]
      split <;> simp
    · rw [applyOp]
      rw [show (({ heap := fun _ => {}, scheds := fun _ => [] } :
        State).add_child 0 1).scheds s = [] from rfl]
      simp
  · refine Reachable.child 0 1 (Reachable.root 0 ?_) ?_
    · show (0 : ItemId) ∈ [0]
      simp
    · show (1 : ItemId) ∈ [1]
      simp
  · rfl
  · intro hh
    exact Option.noConfusion hh

/-- **C3 (amended)** — starting from any back-reference-consistent state,
any sequence of the six mutation operations in which every attached item is
detached (unreferenced) at the moment it is attached preserves parent/child
back-reference consistency — `c.parent == item` for every `c` in
`item.children`, transitively — and keeps every root item parentless with
`schedule` pointing at its schedule.  (The schedule back-reference is set
or cleared only on the directly attached or detached item, never
transitively, so the original claim's transitive schedule condition fails;
see the counterexample.) -/
theorem claim_C3 (S : State) (ops : List Op) (hS : Consistent S)
    (hv : ValidOps S ops) :
    (∀ p c, c ∈ ((applyOps S ops).heap p).children →
      ((applyOps S ops).heap c).parent = some p) ∧
    (∀ s i, i ∈ (applyOps S ops).scheds s →
      ((applyOps S ops).heap i).parent = none ∧
      ((applyOps S ops).heap i).schedule = some s) := by
  have h := consistent_applyOps ops S hS hv
  exact ⟨h.parent_ok, fun s i hi => ⟨h.root_parent s i hi, h.root_schedule s i hi⟩⟩

/-- Witness for C3: attach a root item to schedule 0, then a child under
it; afterwards the back-references are consistent. -/
theorem claim_C3_witness :
    ((applyOps { heap := fun _ => {}, scheds := fun _ => [] }
      [Op.add_item 0 0, Op.add_child 0 1]).heap 1).parent = some 0 ∧
    ((applyOps { heap := fun _ => {}, scheds := fun _ => [] }
      [Op.add_item 0 0, Op.add_child 0 1]).heap 0).parent = none ∧
    ((applyOps { heap := fun _ => {}, scheds := fun _ => [] }
      [Op.add_item 0 0, Op.add_child 0 1]).heap 0).schedule = some 0 := by
  have hcons : Consistent { heap := fun _ => {}, scheds := fun _ => [] } := by
    refine ⟨?_, ?_, ?_, ?_, ?_⟩ <;> intros <;> simp_all
  have hvalid : ValidOps { heap := fun _ => {}, scheds := fun _ => [] }
      [Op.add_item 0 0, Op.add_child 0 1] := by
    refine ValidOps.cons _ _ _ ⟨fun p => ?_, fun s => ?_⟩
      (ValidOps.cons _ _ _ ⟨fun p => ?_, fun s => ?_⟩ (ValidOps.nil _))
    · simp
    · simp
    · rw [applyOp, add_item_heap_cases]
      simp
    · rw [applyOp, add_item_scheds]
      split <;> simp
  have h := claim_C3 { heap := fun _ => {}, scheds := fun _ => [] }
    [Op.add_item 0 0, Op.add_child 0 1] hcons hvalid
  refine ⟨h.1 0 1 ?_, (h.2 0 0 ?_).1, (h.2 0 0 ?_).2⟩
  · show (1 : ItemId) ∈ [1]
    simp
  · show (0 : ItemId) ∈ [0]
    simp
  · show (0 : ItemId) ∈ [0]
    simp
